import Mathlib

/-!
# Verification of `src/crawler/main.go`

A shallow embedding of the page extractor of the crawler and the proofs of the
properties its specification states.

Conventions of the embedding.

* A Go `string` is a Lean `String`, read as its sequence of runes (`String.data`).
* The token stream of `html.NewTokenizer(r)` is the list of the tokens that
  `Tokenizer.Next` yields before its first `html.ErrorToken`; the end of the list
  is the error/end-of-stream token, which the tokenizer then repeats for ever.
* `strings.ToLower` is rune-wise `unicode.ToLower`: its ASCII branch is written
  out, its table look-up for runes above `unicode.MaxASCII` is the parameter
  `caseTable` of every definition that lowercases.
* `time.Now()` is the parameter `now`; the network is the parameter `get`.
-/

namespace Crawler

/-! ## Library: `unicode`, `strings`, `regexp` -/

/-- Model of Go `unicode.ToLower`: the ASCII branch maps `A`..`Z` to `a`..`z` and
leaves every other ASCII rune alone; above `unicode.MaxASCII` the rune is looked up
in the case table of the Unicode release in use. -/
def unicodeToLower (caseTable : Char → Char) (r : Char) : Char :=
  if r.toNat ≤ 0x7F then
    if 65 ≤ r.toNat ∧ r.toNat ≤ 90 then Char.ofNat (r.toNat + 32) else r
  else caseTable r

/-- Model of Go `unicode.IsSpace`: the Latin-1 cases of its switch and the rest of
the `White_Space` property. -/
def IsSpace (r : Char) : Bool :=
  r = '\t' || r = '\n' || r = '\x0b' || r = '\x0c' || r = '\r' || r = ' '
    || r.toNat = 0x85 || r.toNat = 0xA0 || r.toNat = 0x1680
    || (0x2000 ≤ r.toNat && r.toNat ≤ 0x200A)
    || r.toNat = 0x2028 || r.toNat = 0x2029 || r.toNat = 0x202F || r.toNat = 0x205F
    || r.toNat = 0x3000

/-- The class `\s` of Go `regexp` (RE2 syntax): tab, newline, form feed, carriage
return and space. -/
def reSpace (r : Char) : Bool :=
  r = '\t' || r = '\n' || r = '\x0c' || r = '\r' || r = ' '

/-- The class of the pattern `\n+`: the newline alone. -/
def reNewline (r : Char) : Bool :=
  r = '\n'

/-- Model of `regexp.MustCompile(cls+).ReplaceAllString(s, repl)` for a one-rune
class `cls` and a one-rune replacement without `$`: every maximal run of runes of
the class is replaced by `repl`. The flag says that the previous rune was in the
class, so that the current run has been replaced already. -/
def replaceRuns (cls : Char → Bool) (repl : Char) : Bool → List Char → List Char
  | _, [] => []
  | inRun, c :: cs =>
    if cls c then
      if inRun then replaceRuns cls repl true cs
      else repl :: replaceRuns cls repl true cs
    else c :: replaceRuns cls repl false cs

/-- Model of `strings.ToLower`. -/
def ToLower (caseTable : Char → Char) (s : String) : String :=
  ⟨s.data.map (unicodeToLower caseTable)⟩

/-- Runes of `strings.TrimSpace`: the leading and the trailing runes that satisfy
`unicode.IsSpace` are removed. -/
def trimSpaceRunes (l : List Char) : List Char :=
  (l.dropWhile IsSpace).rdropWhile IsSpace

/-- Model of `strings.TrimSpace`. -/
def TrimSpace (s : String) : String :=
  ⟨trimSpaceRunes s.data⟩

/-! ## Library: `golang.org/x/net/html` -/

/-- Token types of `html.Tokenizer` other than `html.ErrorToken`. -/
inductive TokenType where
  | TextToken
  | StartTagToken
  | EndTagToken
  | SelfClosingTagToken
  | CommentToken
  | DoctypeToken
deriving DecidableEq, Repr

/-- Model of `html.Attribute`. -/
structure Attribute where
  Namespace : String
  Key : String
  Val : String
deriving DecidableEq, Repr

/-- Model of `html.Token`: the token type returned by `Tokenizer.Next` (Go field
`Type`, here `Kind`) together with what `Tokenizer.Token` reports for it. -/
structure Token where
  Kind : TokenType
  Data : String
  Attr : List Attribute
deriving DecidableEq, Repr

/-! ## Data model (`main.go` lines 15-26) -/

/-- Go struct `Metadata`. -/
structure Metadata where
  title : String
  description : String
  timestamp : String
  status_code : Int
deriving DecidableEq, Repr

/-- Go struct `CrawlerMessage`. -/
structure CrawlerMessage where
  url : String
  text : String
  meta : Metadata
deriving DecidableEq, Repr

/-- Zero value `CrawlerMessage{}`. -/
def CrawlerMessage.zero : CrawlerMessage :=
  { url := "", text := "", meta := { title := "", description := "", timestamp := "", status_code := 0 } }

/-- Go `map[string]string`: a key is absent (`none`) or bound to a value. -/
abbrev StringMap := String → Option String

/-- Empty map, `make(map[string]string, n)`. -/
def StringMap.empty : StringMap := fun _ => none

/-- Assignment `m[k] = v`. -/
def StringMap.set (m : StringMap) (k v : String) : StringMap :=
  fun k' => if k' = k then some v else m k'

/-- Index expression `m[k]`: the zero value `""` when the key is absent. -/
def StringMap.index (m : StringMap) (k : String) : String :=
  (m k).getD ""

/-! ## Helpers (`main.go` lines 28-56) -/

/-- Go `attrToMap` (lines 28-34). -/
def attrToMap (arr_attr : List Attribute) : StringMap :=
  arr_attr.foldl (fun map_attr elem => map_attr.set elem.Key elem.Val) StringMap.empty

/-- Go `valueExistAndEqualKey` (lines 36-43). -/
def valueExistAndEqualKey (attr_map : StringMap) (key value : String) : Bool :=
  match attr_map key with
  | some val => if val = value then true else false
  | none => false

/-- Go `normalizeText` (lines 45-56). -/
def normalizeText (caseTable : Char → Char) (text : String) : String :=
  if text = "" then ""
  else
    let text := ToLower caseTable text
    let text : String := ⟨replaceRuns reNewline '\n' false text.data⟩
    let text : String := ⟨replaceRuns reSpace ' ' false text.data⟩
    TrimSpace text

/-! ## The extractor (`main.go` lines 88-154) -/

/-- Local variables of `extract_data` that live across loop iterations. -/
structure LoopState where
  message : CrawlerMessage
  res_text : String
  skip_tag : String
deriving DecidableEq, Repr

/-- State on entry to the loop (lines 89-91). -/
def LoopState.init : LoopState :=
  { message := CrawlerMessage.zero, res_text := "", skip_tag := "" }

/-- Branch `case "meta"` (lines 118-124). -/
def caseMeta (st : LoopState) (tok : Token) : LoopState :=
  let attr_map := attrToMap tok.Attr
  if valueExistAndEqualKey attr_map "property" "og:description" then
    { st with message := { st.message with
        meta := { st.message.meta with description := attr_map.index "content" } } }
  else if valueExistAndEqualKey attr_map "name" "description"
      && !valueExistAndEqualKey attr_map "property" "og:description" then
    { st with message := { st.message with
        meta := { st.message.meta with description := attr_map.index "content" } } }
  else st

/-- Inner `switch tok.Data` (lines 112-137) for every tag name but `title`, whose
branch reads the tokenizer and is part of `extractLoop`. -/
def caseTag (st : LoopState) (tok : Token) : LoopState :=
  if tok.Data = "meta" then caseMeta st tok
  else if tok.Data = "script" ∨ tok.Data = "noscript" ∨ tok.Data = "style" then
    { st with skip_tag := tok.Data }
  else if tok.Data = "h1" ∨ tok.Data = "h2" ∨ tok.Data = "h3" ∨ tok.Data = "h4"
      ∨ tok.Data = "h5" ∨ tok.Data = "h6" then
    { st with res_text := st.res_text ++ "\n" }
  else if tok.Data = "p" ∨ tok.Data = "div" ∨ tok.Data = "br" then
    { st with res_text := st.res_text ++ "\n" }
  else if tok.Data = "li" then
    { st with res_text := st.res_text ++ "\n• " }
  else st

/-- Branch `case html.TextToken` (lines 139-144). -/
def caseText (st : LoopState) (tok : Token) : LoopState :=
  let text := TrimSpace tok.Data
  if text ≠ "" then { st with res_text := (st.res_text ++ text) ++ " " } else st

/-- Suppression branch (lines 100-105): the token is discarded, an end tag named
`skip_tag` clears `skip_tag`. -/
def caseSkip (st : LoopState) (tok : Token) : LoopState :=
  if tok.Kind = TokenType.EndTagToken ∧ tok.Data = st.skip_tag then { st with skip_tag := "" }
  else st

/-- Assignment of line 115 after the look-ahead `tokenizer.Next()` of line 114. -/
def caseTitle (st : LoopState) (nxt : Token) : LoopState :=
  if nxt.Kind = TokenType.TextToken then
    { st with message := { st.message with meta := { st.message.meta with title := nxt.Data } } }
  else st

/-- The `for` loop of `extract_data` (lines 94-147) over the remaining tokens, by
recursion on the stream. A title tag that is the last token ends the loop: its
look-ahead reads the end of the stream, and so does the next `tokenizer.Next()` at
the head of the loop (`extractLoopFuel` spells the calls out). -/
def extractLoop : LoopState → List Token → LoopState
  | st, [] => st
  | st, tok :: rest =>
    if st.skip_tag ≠ "" then extractLoop (caseSkip st tok) rest
    else
      match tok.Kind with
      | TokenType.StartTagToken | TokenType.SelfClosingTagToken =>
        if tok.Data = "title" then
          match rest with
          | [] => st
          | nxt :: rest' => extractLoop (caseTitle st nxt) rest'
        else extractLoop (caseTag st tok) rest
      | TokenType.TextToken => extractLoop (caseText st tok) rest
      | _ => extractLoop st rest

/-- Model of `Tokenizer.Next` on the tokens not yet read: the next token and the
tokens left. At the end of the stream it reports `html.ErrorToken` (`none`) and
keeps reporting it, the error of the tokenizer being sticky. -/
def Next : List Token → Option Token × List Token
  | [] => (none, [])
  | tok :: rest => (some tok, rest)

/-- The `for` loop of lines 94-147, call by call of `tokenizer.Next()`, run for at
most `fuel` iterations on the tokenizer state `z`: `none` when the loop has not
reached its `break` by then. -/
def extractLoopFuel : Nat → LoopState → List Token → Option LoopState
  | 0, _, _ => none
  | fuel + 1, st, z =>
    match Next z with
    | (none, _) => some st
    | (some tok, z1) =>
      if st.skip_tag ≠ "" then extractLoopFuel fuel (caseSkip st tok) z1
      else
        match tok.Kind with
        | TokenType.StartTagToken | TokenType.SelfClosingTagToken =>
          if tok.Data = "title" then
            match Next z1 with
            | (none, z2) => extractLoopFuel fuel st z2
            | (some nxt, z2) => extractLoopFuel fuel (caseTitle st nxt) z2
          else extractLoopFuel fuel (caseTag st tok) z1
        | TokenType.TextToken => extractLoopFuel fuel (caseText st tok) z1
        | _ => extractLoopFuel fuel st z1

/-- Go `extract_data` (lines 88-154); `r` is the token stream of the reader. -/
def extract_data (caseTable : Char → Char) (now : String) (r : List Token) : CrawlerMessage :=
  let st := extractLoop LoopState.init r
  { st.message with
    text := normalizeText caseTable st.res_text
    meta := { st.message.meta with timestamp := now, status_code := 200 } }

/-! ## The fetcher (`main.go` lines 58-86) -/

/-- Outcome of `client.Get(Url)` (line 62): a transport error `err`, or a response
with its status code and its body, the body being given by its token stream. -/
inductive GetResult where
  | failure (err : String)
  | response (StatusCode : Int) (Body : List Token)
deriving DecidableEq, Repr

/-- Go `fetch_page` (lines 58-86). The second component is the returned `error`,
`none` for `nil`; `get` is the network as seen by `client.Get`. -/
def fetch_page (caseTable : Char → Char) (now : String) (get : String → GetResult)
    (Url : String) : CrawlerMessage × Option String :=
  match get Url with
  | GetResult.failure err => (CrawlerMessage.zero, some err)
  | GetResult.response StatusCode Body =>
    if StatusCode ≠ 200 then
      (CrawlerMessage.zero,
        some ("unexpected status code " ++ toString StatusCode ++ " for " ++ Url))
    else
      let message : CrawlerMessage :=
        { url := Url, text := "",
          meta := { title := "", description := "", timestamp := "", status_code := StatusCode } }
      let extractedData := extract_data caseTable now Body
      ({ message with
          text := extractedData.text
          meta := { message.meta with
            title := extractedData.meta.title
            description := extractedData.meta.description
            timestamp := extractedData.meta.timestamp } }, none)

/-! ## The report (`main.go` lines 156-164) -/

/-- UTF-8 encoding of a rune, the bytes as natural numbers below 256. -/
def utf8Rune (r : Char) : List Nat :=
  let n := r.toNat
  if n < 0x80 then [n]
  else if n < 0x800 then [0xC0 + n / 0x40, 0x80 + n % 0x40]
  else if n < 0x10000 then [0xE0 + n / 0x1000, 0x80 + n / 0x40 % 0x40, 0x80 + n % 0x40]
  else [0xF0 + n / 0x40000, 0x80 + n / 0x1000 % 0x40, 0x80 + n / 0x40 % 0x40, 0x80 + n % 0x40]

/-- Bytes of a Go string. -/
def bytes (s : String) : List Nat :=
  (s.data.map utf8Rune).flatten

/-- Go `len(s)` of a string: its number of bytes. -/
def len (s : String) : Nat :=
  (bytes s).length

/-- Go slice expression `s[:n]` of a string: its first `n` bytes. The result `none`
is the run-time panic "slice bounds out of range", raised when `n > len(s)`. -/
def sliceTo (s : String) (n : Nat) : Option (List Nat) :=
  if n ≤ len s then some ((bytes s).take n) else none

/-- Go `main` (lines 156-164) on the network `get`. The first component holds the
four lines that lines 159-162 write to standard output; the second is the argument
`crawler_message.text[:100]` of line 163, `none` when evaluating it panics, so that
the run ends there and the fifth line is not written. The error returned by
`fetch_page` is discarded (line 158). -/
def main (caseTable : Char → Char) (now : String) (get : String → GetResult) :
    List String × Option (List Nat) :=
  let crawler_message := (fetch_page caseTable now get "https://example.com").1
  (["🌐 URL: " ++ crawler_message.url ++ "\n",
    "📝 Title: " ++ crawler_message.meta.title ++ "\n",
    "📊 Status: " ++ toString crawler_message.meta.status_code ++ "\n",
    "⏰ Time: " ++ crawler_message.meta.timestamp ++ "\n"],
   sliceTo crawler_message.text 100)

/-! ## Reading the loop -/

/-- A start or self-closing tag token, the tokens of `case html.StartTagToken,
html.SelfClosingTagToken` (line 109). -/
def isTag (tok : Token) : Bool :=
  tok.Kind = TokenType.StartTagToken || tok.Kind = TokenType.SelfClosingTagToken

/-- A token that takes the branch `case "title"` (line 113) when it is dispatched. -/
def isTitleTag (tok : Token) : Bool :=
  isTag tok && tok.Data = "title"

/-- The outer `switch tt` (lines 107-145) for a token that is not a title tag. -/
def caseSwitch (st : LoopState) (tok : Token) : LoopState :=
  match tok.Kind with
  | TokenType.StartTagToken | TokenType.SelfClosingTagToken => caseTag st tok
  | TokenType.TextToken => caseText st tok
  | _ => st

/-- State at the head of the `for` loop (line 95) at the moment exactly the tokens
`pre` have been read from the tokenizer, the loop having started in `st`. It is
`none` when no iteration starts there: the last token of `pre` is a dispatched title
tag, whose look-ahead (line 114) reads the token that comes after `pre`. -/
def loopHead : LoopState → List Token → Option LoopState
  | st, [] => some st
  | st, tok :: rest =>
    if st.skip_tag ≠ "" then loopHead (caseSkip st tok) rest
    else
      match tok.Kind with
      | TokenType.StartTagToken | TokenType.SelfClosingTagToken =>
        if tok.Data = "title" then
          match rest with
          | [] => none
          | nxt :: rest' => loopHead (caseTitle st nxt) rest'
        else loopHead (caseTag st tok) rest
      | TokenType.TextToken => loopHead (caseText st tok) rest
      | _ => loopHead st rest

/-- The loop that started in `st` is at its head with `skip_tag` empty when exactly
the tokens `pre` have been read. -/
def normalAt (st : LoopState) (pre : List Token) : Bool :=
  match loopHead st pre with
  | some st' => st'.skip_tag = ""
  | none => false

/-- The token that follows the tokens `pre` of a stream is reached in Normal state:
it is read by the `tokenizer.Next()` at the head of the loop (so it is not the
look-ahead token of a title tag) while `skip_tag` is empty (so it is not inside a
suppressed element), and is dispatched by the `switch` of line 107. -/
def reachedNormal (pre : List Token) : Bool :=
  normalAt LoopState.init pre

/-- The loop state with the title of the message replaced by `x`. -/
def withTitle (st : LoopState) (x : String) : LoopState :=
  { st with message := { st.message with meta := { st.message.meta with title := x } } }

/-! ## Vocabulary of the specification -/

/-- The tokens of `toks` that are reached in Normal state, in stream order, each with
the token that follows it in the stream; `pre` are the tokens read before `toks` by
a loop that started in `st`. -/
def normalTokensFrom (st : LoopState) : List Token → List Token → List (Token × Option Token)
  | _, [] => []
  | pre, tok :: rest =>
    if normalAt st pre then (tok, rest.head?) :: normalTokensFrom st (pre ++ [tok]) rest
    else normalTokensFrom st (pre ++ [tok]) rest

/-- The tokens of a stream that are reached in Normal state, each with its successor. -/
def normalTokens (toks : List Token) : List (Token × Option Token) :=
  normalTokensFrom LoopState.init [] toks

/-- The text of the token after a title tag, when that token is a text token. -/
def titleText : Token × Option Token → Option String
  | (tok, some nxt) =>
    if isTitleTag tok = true ∧ nxt.Kind = TokenType.TextToken then some nxt.Data else none
  | (_, none) => none

/-- The texts `x` of the occurrences "title start or self-closing tag reached in
Normal state and immediately followed by the text token `x`", in stream order. -/
def titleOccurrences (toks : List Token) : List String :=
  (normalTokens toks).filterMap titleText

/-- A meta start or self-closing tag whose attributes have
`property = "og:description"` or `name = "description"`. -/
def isDescriptionMeta (tok : Token) : Bool :=
  isTag tok && tok.Data = "meta"
    && (valueExistAndEqualKey (attrToMap tok.Attr) "property" "og:description"
      || valueExistAndEqualKey (attrToMap tok.Attr) "name" "description")

/-- The value of the `content` attribute of a tag, empty when it has none. -/
def contentAttr (tok : Token) : String :=
  (attrToMap tok.Attr).index "content"

/-- The description meta tags of a stream that are dispatched in Normal state, in
stream order. -/
def descriptionMetas (toks : List Token) : List Token :=
  ((normalTokens toks).map Prod.fst).filter isDescriptionMeta

/-- A start or self-closing tag named `h1`..`h6`, `p`, `div` or `br`. -/
def isBlockTag (tok : Token) : Bool :=
  isTag tok && (tok.Data = "h1" || tok.Data = "h2" || tok.Data = "h3" || tok.Data = "h4"
    || tok.Data = "h5" || tok.Data = "h6" || tok.Data = "p" || tok.Data = "div"
    || tok.Data = "br")

/-- The stream with every start or self-closing tag named `h1`..`h6`, `p`, `div` or
`br` deleted. -/
def deleteBlockTags (toks : List Token) : List Token :=
  toks.filter (fun tok => !isBlockTag tok)

/-- What the `switch` of line 107 appends to the raw buffer for a token: the buffer
it leaves when it starts from the empty one. -/
def appended (tok : Token) : String :=
  (caseSwitch LoopState.init tok).res_text

/-- The whitespace-trimmed, non-empty contents of the text tokens of a stream, in
stream order. -/
def textContents (toks : List Token) : List String :=
  ((toks.filter (fun tok => tok.Kind = TokenType.TextToken)).map
    (fun tok => TrimSpace tok.Data)).filter (fun text => text ≠ "")

/-- Strings joined with single spaces. -/
def joinSpaces : List String → String
  | [] => ""
  | [x] => x
  | x :: y :: rest => x ++ " " ++ joinSpaces (y :: rest)

/-- The pipeline of `normalizeText` with the newline-collapse step (line 51) removed:
lowercase, collapse each run of white space to one space, trim. -/
def normalizeTextWithoutNewlineStep (caseTable : Char → Char) (text : String) : String :=
  if text = "" then ""
  else
    let text := ToLower caseTable text
    let text : String := ⟨replaceRuns reSpace ' ' false text.data⟩
    TrimSpace text

/-- The value of the last attribute of a list whose key is `k`, if there is one. -/
def lastValue (arr_attr : List Attribute) (k : String) : Option String :=
  ((arr_attr.filter (fun elem => elem.Key = k)).getLast?).map (fun elem => elem.Val)

/-- Token of `<meta name="description">`, without a `content` attribute. -/
def metaNameNoContent : Token :=
  ⟨TokenType.StartTagToken, "meta", [⟨"", "name", "description"⟩]⟩

/-! ## Example streams -/

/-- Token stream of `<title>T</title><p>a<br/>b`. -/
def titledParagraph : List Token :=
  [⟨TokenType.StartTagToken, "title", []⟩, ⟨TokenType.TextToken, "T", []⟩,
   ⟨TokenType.EndTagToken, "title", []⟩, ⟨TokenType.StartTagToken, "p", []⟩,
   ⟨TokenType.TextToken, "a", []⟩, ⟨TokenType.SelfClosingTagToken, "br", []⟩,
   ⟨TokenType.TextToken, "b", []⟩]

/-- Token stream of `<title>a</title><title>b</title>`. -/
def twoTitles : List Token :=
  [⟨TokenType.StartTagToken, "title", []⟩, ⟨TokenType.TextToken, "a", []⟩,
   ⟨TokenType.EndTagToken, "title", []⟩, ⟨TokenType.StartTagToken, "title", []⟩,
   ⟨TokenType.TextToken, "b", []⟩, ⟨TokenType.EndTagToken, "title", []⟩]

/-- Token stream of `<li>one</li><li>two</li>`. -/
def twoItems : List Token :=
  [⟨TokenType.StartTagToken, "li", []⟩, ⟨TokenType.TextToken, "one", []⟩,
   ⟨TokenType.EndTagToken, "li", []⟩, ⟨TokenType.StartTagToken, "li", []⟩,
   ⟨TokenType.TextToken, "two", []⟩, ⟨TokenType.EndTagToken, "li", []⟩]

/-- Token of `<meta property="og:description" content=A>`. -/
def metaOgDescription (A : String) : Token :=
  ⟨TokenType.StartTagToken, "meta", [⟨"", "property", "og:description"⟩, ⟨"", "content", A⟩]⟩

/-- Token of `<meta name="description" content=B>`. -/
def metaNameDescription (B : String) : Token :=
  ⟨TokenType.StartTagToken, "meta", [⟨"", "name", "description"⟩, ⟨"", "content", B⟩]⟩

/-! ## The loop, one iteration at a time -/

theorem extractLoop_nil (st : LoopState) : extractLoop st [] = st := by
  simp [extractLoop]

theorem extractLoop_skip {st : LoopState} (h : st.skip_tag ≠ "") (tok : Token)
    (rest : List Token) : extractLoop st (tok :: rest) = extractLoop (caseSkip st tok) rest := by
  cases rest <;> simp [extractLoop, h]

theorem extractLoop_title_nil {st : LoopState} (h : st.skip_tag = "") {tok : Token}
    (ht : isTitleTag tok = true) : extractLoop st [tok] = st := by
  simp [isTitleTag, isTag] at ht
  rcases ht with ⟨hk | hk, hd⟩ <;> simp [extractLoop, h, hk, hd]

theorem extractLoop_title_cons {st : LoopState} (h : st.skip_tag = "") {tok : Token}
    (ht : isTitleTag tok = true) (nxt : Token) (rest : List Token) :
    extractLoop st (tok :: nxt :: rest) = extractLoop (caseTitle st nxt) rest := by
  simp [isTitleTag, isTag] at ht
  rcases ht with ⟨hk | hk, hd⟩ <;> simp [extractLoop, h, hk, hd]

theorem extractLoop_switch {st : LoopState} (h : st.skip_tag = "") {tok : Token}
    (ht : isTitleTag tok = false) (rest : List Token) :
    extractLoop st (tok :: rest) = extractLoop (caseSwitch st tok) rest := by
  simp [isTitleTag, isTag] at ht
  cases hk : tok.Kind <;> cases rest <;> simp_all [extractLoop, caseSwitch]

theorem loopHead_nil (st : LoopState) : loopHead st [] = some st := by
  simp [loopHead]

theorem loopHead_skip {st : LoopState} (h : st.skip_tag ≠ "") (tok : Token)
    (rest : List Token) : loopHead st (tok :: rest) = loopHead (caseSkip st tok) rest := by
  cases rest <;> simp [loopHead, h]

theorem loopHead_title_nil {st : LoopState} (h : st.skip_tag = "") {tok : Token}
    (ht : isTitleTag tok = true) : loopHead st [tok] = none := by
  simp [isTitleTag, isTag] at ht
  rcases ht with ⟨hk | hk, hd⟩ <;> simp [loopHead, h, hk, hd]

theorem loopHead_title_cons {st : LoopState} (h : st.skip_tag = "") {tok : Token}
    (ht : isTitleTag tok = true) (nxt : Token) (rest : List Token) :
    loopHead st (tok :: nxt :: rest) = loopHead (caseTitle st nxt) rest := by
  simp [isTitleTag, isTag] at ht
  rcases ht with ⟨hk | hk, hd⟩ <;> simp [loopHead, h, hk, hd]

theorem loopHead_switch {st : LoopState} (h : st.skip_tag = "") {tok : Token}
    (ht : isTitleTag tok = false) (rest : List Token) :
    loopHead st (tok :: rest) = loopHead (caseSwitch st tok) rest := by
  simp [isTitleTag, isTag] at ht
  cases hk : tok.Kind <;> cases rest <;> simp_all [loopHead, caseSwitch]

/-- Induction along the iterations of the loop: an iteration reads one token, or
two when it dispatches a title tag. -/
theorem loop_induction {motive : LoopState → List Token → Prop}
    (nil : ∀ st, motive st [])
    (skip : ∀ st tok rest, st.skip_tag ≠ "" → motive (caseSkip st tok) rest →
      motive st (tok :: rest))
    (title_nil : ∀ st tok, st.skip_tag = "" → isTitleTag tok = true → motive st [tok])
    (title_cons : ∀ st tok nxt rest, st.skip_tag = "" → isTitleTag tok = true →
      motive (caseTitle st nxt) rest → motive st (tok :: nxt :: rest))
    (switch : ∀ st tok rest, st.skip_tag = "" → isTitleTag tok = false →
      motive (caseSwitch st tok) rest → motive st (tok :: rest))
    (st : LoopState) (toks : List Token) : motive st toks := by
  have key : ∀ n : Nat, ∀ (st : LoopState) (toks : List Token),
      toks.length ≤ n → motive st toks := by
    intro n
    induction n with
    | zero =>
      intro st toks hlen
      cases toks with
      | nil => exact nil st
      | cons t tl => simp at hlen
    | succ n ih =>
      intro st toks hlen
      match toks, hlen with
      | [], _ => exact nil st
      | tok :: rest, hlen =>
        have hrest : rest.length ≤ n := by simpa using hlen
        by_cases hs : st.skip_tag = ""
        · cases ht : isTitleTag tok
          · exact switch st tok rest hs ht (ih _ rest hrest)
          · match rest, hrest with
            | [], _ => exact title_nil st tok hs ht
            | nxt :: rest', hrest =>
              have hrest' : rest'.length ≤ n := by
                have : rest'.length + 1 ≤ n := by simpa using hrest
                omega
              exact title_cons st tok nxt rest' hs ht (ih _ rest' hrest')
        · exact skip st tok rest hs (ih _ rest hrest)
  exact key toks.length st toks (Nat.le_refl _)

/-- Reading on from a loop head: the loop over `pre ++ rest` continues from the
state reached after `pre`. -/
theorem extractLoop_append (rest : List Token) (st : LoopState) (pre : List Token) :
    ∀ st', loopHead st pre = some st' → extractLoop st (pre ++ rest) = extractLoop st' rest := by
  induction st, pre using loop_induction with
  | nil st => intro st' h; simp [loopHead_nil] at h; simp [h]
  | skip st tok tl hs ih =>
    intro st' h
    rw [loopHead_skip hs] at h
    rw [List.cons_append, extractLoop_skip hs]
    exact ih st' h
  | title_nil st tok hs ht => intro st' h; simp [loopHead_title_nil hs ht] at h
  | title_cons st tok nxt tl hs ht ih =>
    intro st' h
    rw [loopHead_title_cons hs ht] at h
    rw [List.cons_append, List.cons_append, extractLoop_title_cons hs ht]
    exact ih st' h
  | switch st tok tl hs ht ih =>
    intro st' h
    rw [loopHead_switch hs ht] at h
    rw [List.cons_append, extractLoop_switch hs ht]
    exact ih st' h

/-- Loop heads compose. -/
theorem loopHead_append (rest : List Token) (st : LoopState) (pre : List Token) :
    ∀ st', loopHead st pre = some st' → loopHead st (pre ++ rest) = loopHead st' rest := by
  induction st, pre using loop_induction with
  | nil st => intro st' h; simp [loopHead_nil] at h; simp [h]
  | skip st tok tl hs ih =>
    intro st' h
    rw [loopHead_skip hs] at h
    rw [List.cons_append, loopHead_skip hs]
    exact ih st' h
  | title_nil st tok hs ht => intro st' h; simp [loopHead_title_nil hs ht] at h
  | title_cons st tok nxt tl hs ht ih =>
    intro st' h
    rw [loopHead_title_cons hs ht] at h
    rw [List.cons_append, List.cons_append, loopHead_title_cons hs ht]
    exact ih st' h
  | switch st tok tl hs ht ih =>
    intro st' h
    rw [loopHead_switch hs ht] at h
    rw [List.cons_append, loopHead_switch hs ht]
    exact ih st' h

/-- A token stream whose prefix `pre` ends at a loop head in Normal state. -/
theorem reachedNormal_iff (pre : List Token) :
    reachedNormal pre = true ↔
      ∃ st, loopHead LoopState.init pre = some st ∧ st.skip_tag = "" := by
  unfold reachedNormal normalAt
  cases h : loopHead LoopState.init pre <;> simp

/-- While `skip_tag` is set, tokens other than the matching end tag are discarded. -/
theorem extractLoop_discard (rest : List Token) (inner : List Token) :
    ∀ st : LoopState, st.skip_tag ≠ "" →
      (∀ t ∈ inner, ¬ (t.Kind = TokenType.EndTagToken ∧ t.Data = st.skip_tag)) →
      extractLoop st (inner ++ rest) = extractLoop st rest := by
  induction inner with
  | nil => intro st _ _; rfl
  | cons t tl ih =>
    intro st hs hin
    have ht : caseSkip st t = st := by
      have := hin t (List.mem_cons_self _ _)
      simp [caseSkip, this]
    rw [List.cons_append, extractLoop_skip hs, ht]
    exact ih st hs (fun u hu => hin u (List.mem_cons_of_mem _ hu))

/-- C1: content of a `script`, `noscript` or `style` element never reaches the
output. For a start (or self-closing) tag named `script`, `noscript` or `style` that
is reached in Normal state, followed by tokens `inner` none of which is an end tag
of that name, followed by the end tag of that name, `extract_data` returns the same
message (so the same text, title and description) as on the stream with the whole
element removed. -/
theorem suppressed_element_invisible (caseTable : Char → Char) (now : String)
    (pre inner post : List Token) (startTag endTag : Token)
    (hname : startTag.Data = "script" ∨ startTag.Data = "noscript" ∨ startTag.Data = "style")
    (hstart : isTag startTag = true)
    (hend : endTag.Kind = TokenType.EndTagToken ∧ endTag.Data = startTag.Data)
    (hpre : reachedNormal pre = true)
    (hinner : ∀ t ∈ inner, ¬ (t.Kind = TokenType.EndTagToken ∧ t.Data = startTag.Data)) :
    extract_data caseTable now (pre ++ [startTag] ++ inner ++ [endTag] ++ post)
      = extract_data caseTable now (pre ++ post) := by
  obtain ⟨st, hst, hnormal⟩ := (reachedNormal_iff pre).1 hpre
  have hnotTitle : isTitleTag startTag = false := by
    rcases hname with h | h | h <;> simp [isTitleTag, h]
  have hsw : caseSwitch st startTag = { st with skip_tag := startTag.Data } := by
    simp only [isTag, Bool.or_eq_true, decide_eq_true_eq] at hstart
    rcases hstart with hk | hk <;> rcases hname with h | h | h <;>
      simp [caseSwitch, caseTag, hk, h]
  have hne : startTag.Data ≠ "" := by
    rcases hname with h | h | h <;> simp [h]
  have hloop : extractLoop LoopState.init (pre ++ [startTag] ++ inner ++ [endTag] ++ post)
      = extractLoop LoopState.init (pre ++ post) := by
    have e1 : pre ++ [startTag] ++ inner ++ [endTag] ++ post
        = pre ++ (startTag :: (inner ++ endTag :: post)) := by simp
    rw [e1, extractLoop_append _ _ _ st hst, extractLoop_append _ _ _ st hst,
      extractLoop_switch hnormal hnotTitle, hsw,
      extractLoop_discard _ inner _ hne hinner, extractLoop_skip hne]
    have : caseSkip { st with skip_tag := startTag.Data } endTag = st := by
      cases st
      simp_all [caseSkip]
    rw [this]
  simp only [extract_data, hloop]

/-- Witness of C1 on the stream of `a<script>x</p></script>b`. -/
theorem suppressed_element_invisible_witness :
    reachedNormal [⟨TokenType.TextToken, "a", []⟩] = true ∧
    extract_data (fun r => r) "t"
        ([⟨TokenType.TextToken, "a", []⟩] ++ [⟨TokenType.StartTagToken, "script", []⟩]
          ++ [⟨TokenType.TextToken, "x", []⟩, ⟨TokenType.EndTagToken, "p", []⟩]
          ++ [⟨TokenType.EndTagToken, "script", []⟩] ++ [⟨TokenType.TextToken, "b", []⟩])
      = extract_data (fun r => r) "t"
        ([⟨TokenType.TextToken, "a", []⟩] ++ [⟨TokenType.TextToken, "b", []⟩]) :=
  ⟨by decide,
    suppressed_element_invisible (fun r => r) "t" [⟨TokenType.TextToken, "a", []⟩]
      [⟨TokenType.TextToken, "x", []⟩, ⟨TokenType.EndTagToken, "p", []⟩]
      [⟨TokenType.TextToken, "b", []⟩] ⟨TokenType.StartTagToken, "script", []⟩
      ⟨TokenType.EndTagToken, "script", []⟩ (by decide) (by decide) (by decide) (by decide)
      (by decide)⟩

/-! ## Title and description -/

theorem normalAt_nil (st : LoopState) : normalAt st [] = decide (st.skip_tag = "") := by
  simp [normalAt, loopHead_nil]

/-- Dropping a first iteration from the tokens read so far. -/
theorem normalTokensFrom_shift {st st1 : LoopState} {first : List Token}
    (h : ∀ pre, normalAt st (first ++ pre) = normalAt st1 pre) (toks : List Token) :
    ∀ pre, normalTokensFrom st (first ++ pre) toks = normalTokensFrom st1 pre toks := by
  induction toks with
  | nil => intro pre; simp [normalTokensFrom]
  | cons t tl ih =>
    intro pre
    simp only [normalTokensFrom, h pre]
    rw [List.append_assoc, ih (pre ++ [t])]

theorem normalTokensFrom_skip {st : LoopState} (hs : st.skip_tag ≠ "") (tok : Token)
    (rest : List Token) :
    normalTokensFrom st [] (tok :: rest) = normalTokensFrom (caseSkip st tok) [] rest := by
  have h : ∀ pre, normalAt st ([tok] ++ pre) = normalAt (caseSkip st tok) pre := by
    intro pre; simp [normalAt, loopHead_skip hs]
  have := normalTokensFrom_shift h rest []
  simp only [normalTokensFrom, normalAt_nil, hs, decide_False]
  simpa using this

theorem normalTokensFrom_switch {st : LoopState} (hs : st.skip_tag = "") {tok : Token}
    (ht : isTitleTag tok = false) (rest : List Token) :
    normalTokensFrom st [] (tok :: rest)
      = (tok, rest.head?) :: normalTokensFrom (caseSwitch st tok) [] rest := by
  have h : ∀ pre, normalAt st ([tok] ++ pre) = normalAt (caseSwitch st tok) pre := by
    intro pre; simp [normalAt, loopHead_switch hs ht]
  have := normalTokensFrom_shift h rest []
  simp only [normalTokensFrom, normalAt_nil, hs, decide_True]
  simpa using this

theorem normalTokensFrom_title_nil {st : LoopState} (hs : st.skip_tag = "") (tok : Token) :
    normalTokensFrom st [] [tok] = [(tok, none)] := by
  simp [normalTokensFrom, normalAt_nil, hs]

theorem normalTokensFrom_title_cons {st : LoopState} (hs : st.skip_tag = "") {tok : Token}
    (ht : isTitleTag tok = true) (nxt : Token) (rest : List Token) :
    normalTokensFrom st [] (tok :: nxt :: rest)
      = (tok, some nxt) :: normalTokensFrom (caseTitle st nxt) [] rest := by
  have h : ∀ pre, normalAt st ([tok, nxt] ++ pre) = normalAt (caseTitle st nxt) pre := by
    intro pre; simp [normalAt, loopHead_title_cons hs ht]
  have := normalTokensFrom_shift h rest []
  have h1 : normalAt st [tok] = false := by simp [normalAt, loopHead_title_nil hs ht]
  simp only [normalTokensFrom, normalAt_nil, hs, decide_True, List.nil_append, h1]
  simpa using this



theorem caseSkip_message (st : LoopState) (tok : Token) :
    (caseSkip st tok).message = st.message := by
  unfold caseSkip; split <;> rfl

theorem caseTitle_title (st : LoopState) (nxt : Token) :
    (caseTitle st nxt).message.meta.title
      = if nxt.Kind = TokenType.TextToken then nxt.Data else st.message.meta.title := by
  unfold caseTitle; split <;> rfl

theorem caseTitle_description (st : LoopState) (nxt : Token) :
    (caseTitle st nxt).message.meta.description = st.message.meta.description := by
  unfold caseTitle; split <;> rfl

theorem caseMeta_title (st : LoopState) (tok : Token) :
    (caseMeta st tok).message.meta.title = st.message.meta.title := by
  unfold caseMeta; simp only; split
  · rfl
  · split <;> rfl

theorem caseTag_title (st : LoopState) (tok : Token) :
    (caseTag st tok).message.meta.title = st.message.meta.title := by
  unfold caseTag
  repeat' split
  all_goals first | rfl | exact caseMeta_title st tok

theorem caseText_message (st : LoopState) (tok : Token) :
    (caseText st tok).message = st.message := by
  unfold caseText; simp only; split <;> rfl

theorem caseSwitch_title (st : LoopState) (tok : Token) :
    (caseSwitch st tok).message.meta.title = st.message.meta.title := by
  unfold caseSwitch
  split
  · exact caseTag_title st tok
  · exact caseTag_title st tok
  · rw [caseText_message]
  · rfl

theorem titleText_of_not_title {tok : Token} (h : isTitleTag tok = false) (o : Option Token) :
    titleText (tok, o) = none := by
  cases o <;> simp [titleText, h]

/-- The title variable after the loop: the text of the last title occurrence, or its
value before the loop. -/
theorem extractLoop_title (st : LoopState) (toks : List Token) :
    (extractLoop st toks).message.meta.title
      = (((normalTokensFrom st [] toks).filterMap titleText).getLast?).getD
          st.message.meta.title := by
  induction st, toks using loop_induction with
  | nil st => simp [extractLoop_nil, normalTokensFrom]
  | skip st tok rest hs ih =>
    rw [extractLoop_skip hs, normalTokensFrom_skip hs, ih, caseSkip_message]
  | title_nil st tok hs ht =>
    simp [extractLoop_title_nil hs ht, normalTokensFrom_title_nil hs, titleText]
  | title_cons st tok nxt rest hs ht ih =>
    rw [extractLoop_title_cons hs ht, normalTokensFrom_title_cons hs ht, ih, caseTitle_title]
    by_cases hx : nxt.Kind = TokenType.TextToken
    · simp [List.filterMap_cons, titleText, ht, hx, List.getLast?_cons]
    · simp [List.filterMap_cons, titleText, ht, hx]
  | switch st tok rest hs ht ih =>
    rw [extractLoop_switch hs ht, normalTokensFrom_switch hs ht, ih, caseSwitch_title,
      List.filterMap_cons, titleText_of_not_title ht]



theorem caseMeta_description (st : LoopState) (tok : Token) :
    (caseMeta st tok).message.meta.description
      = if valueExistAndEqualKey (attrToMap tok.Attr) "property" "og:description" = true
          ∨ valueExistAndEqualKey (attrToMap tok.Attr) "name" "description" = true
        then contentAttr tok else st.message.meta.description := by
  unfold caseMeta contentAttr
  by_cases h1 : valueExistAndEqualKey (attrToMap tok.Attr) "property" "og:description" = true
  · simp [h1]
  · by_cases h2 : valueExistAndEqualKey (attrToMap tok.Attr) "name" "description" = true
    · simp [h1, h2]
    · simp [h1, h2]

theorem caseTag_description (st : LoopState) (tok : Token) :
    (caseTag st tok).message.meta.description
      = if tok.Data = "meta" then (caseMeta st tok).message.meta.description
        else st.message.meta.description := by
  unfold caseTag
  repeat' split
  all_goals rfl

theorem caseSwitch_description (st : LoopState) (tok : Token) :
    (caseSwitch st tok).message.meta.description
      = if isDescriptionMeta tok = true then contentAttr tok
        else st.message.meta.description := by
  unfold caseSwitch
  split
  · next hk =>
    rw [caseTag_description, caseMeta_description]
    by_cases hd : tok.Data = "meta" <;> simp [isDescriptionMeta, isTag, hk, hd]
  · next hk =>
    rw [caseTag_description, caseMeta_description]
    by_cases hd : tok.Data = "meta" <;> simp [isDescriptionMeta, isTag, hk, hd]
  · next hk => simp [caseText_message, isDescriptionMeta, isTag, hk]
  · next h1 h2 h3 =>
    have h1' : ¬ tok.Kind = TokenType.StartTagToken := h1
    have h2' : ¬ tok.Kind = TokenType.SelfClosingTagToken := h2
    simp [isDescriptionMeta, isTag, h1', h2']

theorem isDescriptionMeta_of_title {tok : Token} (h : isTitleTag tok = true) :
    isDescriptionMeta tok = false := by
  simp [isTitleTag] at h
  simp [isDescriptionMeta, h.2]

/-- The description variable after the loop: the content of the last description
meta tag dispatched in Normal state, or its value before the loop. -/
theorem extractLoop_description (st : LoopState) (toks : List Token) :
    (extractLoop st toks).message.meta.description
      = (((((normalTokensFrom st [] toks).map Prod.fst).filter isDescriptionMeta).getLast?).map
          contentAttr).getD st.message.meta.description := by
  induction st, toks using loop_induction with
  | nil st => simp [extractLoop_nil, normalTokensFrom]
  | skip st tok rest hs ih =>
    rw [extractLoop_skip hs, normalTokensFrom_skip hs, ih, caseSkip_message]
  | title_nil st tok hs ht =>
    simp [extractLoop_title_nil hs ht, normalTokensFrom_title_nil hs,
      isDescriptionMeta_of_title ht]
  | title_cons st tok nxt rest hs ht ih =>
    rw [extractLoop_title_cons hs ht, normalTokensFrom_title_cons hs ht, ih,
      caseTitle_description]
    simp [isDescriptionMeta_of_title ht]
  | switch st tok rest hs ht ih =>
    rw [extractLoop_switch hs ht, normalTokensFrom_switch hs ht, ih, caseSwitch_description]
    by_cases hm : isDescriptionMeta tok = true
    · simp only [List.map_cons, List.filter_cons, hm, if_true, List.getLast?_cons,
        Option.map_some', Option.getD_some]
      cases h : (List.filter isDescriptionMeta
        (List.map Prod.fst (normalTokensFrom (caseSwitch st tok) [] rest))).getLast? <;> simp
    · simp [List.filter_cons, hm]

/-- C2 as stated (first title wins) fails: in the stream of
`<title>a</title><title>b</title>` both title tags are reached in Normal state and
followed by a text token, the first occurrence has the text `a`, and `extract_data`
returns the title `b`. -/
theorem title_first_wins_counterexample :
    titleOccurrences twoTitles = ["a", "b"] ∧
      (extract_data (fun r => r) "t" twoTitles).meta.title = "b" := by
  decide

/-- C2 amended (last title wins): the title returned by `extract_data` is the text of
the last occurrence of a title start or self-closing tag that is reached in Normal
state and immediately followed by a text token, and is empty when the stream has no
such occurrence. -/
theorem title_last_wins (caseTable : Char → Char) (now : String) (toks : List Token) :
    (extract_data caseTable now toks).meta.title = ((titleOccurrences toks).getLast?).getD "" := by
  simp only [extract_data, titleOccurrences, normalTokens]
  rw [extractLoop_title]
  rfl

/-- C3: the description returned by `extract_data` is the `content` attribute of the
last meta start or self-closing tag dispatched in Normal state whose attributes have
`property = "og:description"` or `name = "description"`, and is empty when there is
no such tag; in particular `og:description` with content `A` followed by
`name = "description"` with content `B` gives `B`. -/
theorem description_last_matching_wins :
    (∀ (caseTable : Char → Char) (now : String) (toks : List Token),
      (extract_data caseTable now toks).meta.description
        = (((descriptionMetas toks).getLast?).map contentAttr).getD "") ∧
    (∀ (caseTable : Char → Char) (now A B : String),
      (extract_data caseTable now [metaOgDescription A, metaNameDescription B]).meta.description
        = B) := by
  have main : ∀ (caseTable : Char → Char) (now : String) (toks : List Token),
      (extract_data caseTable now toks).meta.description
        = (((descriptionMetas toks).getLast?).map contentAttr).getD "" := by
    intro caseTable now toks
    simp only [extract_data, descriptionMetas, normalTokens]
    rw [extractLoop_description]
    rfl
  refine ⟨main, ?_⟩
  intro caseTable now A B
  simp [extract_data, extractLoop, LoopState.init, metaOgDescription, metaNameDescription,
    caseTag, caseMeta, attrToMap, valueExistAndEqualKey, StringMap.set, StringMap.index,
    StringMap.empty]

/-! ## Runs and trimming -/

theorem mem_replaceRuns {cls : Char → Bool} {repl : Char} {c : Char} :
    ∀ (l : List Char) (b : Bool), c ∈ replaceRuns cls repl b l →
      c = repl ∨ (c ∈ l ∧ cls c = false) := by
  intro l
  induction l with
  | nil => intro b h; simp [replaceRuns] at h
  | cons a tl ih =>
    intro b h
    by_cases ha : cls a = true
    · cases b with
      | true =>
        simp only [replaceRuns, ha, if_true] at h
        rcases ih _ h with h1 | ⟨h1, h2⟩
        · exact Or.inl h1
        · exact Or.inr ⟨List.mem_cons_of_mem _ h1, h2⟩
      | false =>
        simp only [replaceRuns, ha, if_true, Bool.false_eq_true, if_false, List.mem_cons] at h
        rcases h with h | h
        · exact Or.inl h
        · rcases ih _ h with h1 | ⟨h1, h2⟩
          · exact Or.inl h1
          · exact Or.inr ⟨List.mem_cons_of_mem _ h1, h2⟩
    · simp only [replaceRuns, ha, Bool.false_eq_true, if_false, List.mem_cons] at h
      rcases h with h | h
      · subst h
        exact Or.inr ⟨List.mem_cons_self _ _, by simpa using ha⟩
      · rcases ih _ h with h1 | ⟨h1, h2⟩
        · exact Or.inl h1
        · exact Or.inr ⟨List.mem_cons_of_mem _ h1, h2⟩

/-- After the replacement no two runes of the class are adjacent, and a result that
continues a run does not start with a rune of the class. -/
theorem replaceRuns_chain {cls : Char → Bool} {repl : Char} :
    ∀ (l : List Char) (b : Bool),
      List.Chain' (fun x y => ¬ (cls x = true ∧ cls y = true)) (replaceRuns cls repl b l) ∧
      (b = true → ∀ c, (replaceRuns cls repl b l).head? = some c → cls c = false) := by
  intro l
  induction l with
  | nil => intro b; simp [replaceRuns]
  | cons a tl ih =>
    intro b
    by_cases ha : cls a = true
    · cases b with
      | true =>
        simp only [replaceRuns, ha, if_true]
        exact ⟨(ih true).1, fun _ => (ih true).2 rfl⟩
      | false =>
        simp only [replaceRuns, ha, if_true, Bool.false_eq_true, if_false]
        refine ⟨?_, by simp⟩
        rw [List.chain'_cons']
        refine ⟨?_, (ih true).1⟩
        intro y hy
        have := (ih true).2 rfl y (by simpa using hy)
        simp [this]
    · simp only [replaceRuns, ha, Bool.false_eq_true, if_false]
      refine ⟨?_, ?_⟩
      · rw [List.chain'_cons']
        exact ⟨fun y _ => by simp [ha], (ih false).1⟩
      · intro _ c hc
        simp at hc
        subst hc
        simpa using ha

/-- A list that is already in the form the replacement produces is left alone. -/
theorem replaceRuns_fixed {cls : Char → Bool} {repl : Char} :
    ∀ (l : List Char) (b : Bool),
      List.Chain' (fun x y => ¬ (cls x = true ∧ cls y = true)) l →
      (∀ c ∈ l, cls c = true → c = repl) →
      (b = true → ∀ c, l.head? = some c → cls c = false) →
      replaceRuns cls repl b l = l := by
  intro l
  induction l with
  | nil => intro b _ _ _; simp [replaceRuns]
  | cons a tl ih =>
    intro b hch hcl hb
    rw [List.chain'_cons'] at hch
    have hcl' : ∀ c ∈ tl, cls c = true → c = repl :=
      fun c hc => hcl c (List.mem_cons_of_mem _ hc)
    by_cases ha : cls a = true
    · have hb' : b = false := by
        cases b with
        | false => rfl
        | true =>
          have := hb rfl a (by simp)
          simp [this] at ha
      subst hb'
      have e : a = repl := hcl a (List.mem_cons_self _ _) ha
      simp only [replaceRuns, ha, if_true, Bool.false_eq_true, if_false]
      rw [ih true hch.2 hcl' (fun _ c hc => by
        have := hch.1 c (by simpa using hc)
        simpa [ha] using this), e]
    · simp only [replaceRuns, ha, Bool.false_eq_true, if_false]
      rw [ih false hch.2 hcl' (fun h => by simp at h)]

theorem replaceRuns_of_no_class {cls : Char → Bool} {repl : Char} :
    ∀ (l : List Char) (b : Bool), (∀ c ∈ l, cls c = false) → replaceRuns cls repl b l = l := by
  intro l
  induction l with
  | nil => intro b _; simp [replaceRuns]
  | cons a tl ih =>
    intro b h
    have ha : cls a = false := h a (List.mem_cons_self _ _)
    simp only [replaceRuns, ha, Bool.false_eq_true, if_false]
    rw [ih false (fun c hc => h c (List.mem_cons_of_mem _ hc))]

/-- Trimming removes a leading and a trailing part. -/
theorem trimSpaceRunes_decomp (l : List Char) :
    ∃ s t, l = s ++ (trimSpaceRunes l ++ t) := by
  obtain ⟨t, ht⟩ := List.rdropWhile_prefix IsSpace (l := l.dropWhile IsSpace)
  obtain ⟨s, hs⟩ := List.dropWhile_suffix IsSpace (l := l)
  exact ⟨s, t, by unfold trimSpaceRunes; rw [ht, hs]⟩

theorem mem_of_mem_trimSpaceRunes {l : List Char} {c : Char} (h : c ∈ trimSpaceRunes l) :
    c ∈ l := by
  obtain ⟨s, t, e⟩ := trimSpaceRunes_decomp l
  rw [e]
  simp [h]

theorem chain_trimSpaceRunes {R : Char → Char → Prop} {l : List Char} (h : List.Chain' R l) :
    List.Chain' R (trimSpaceRunes l) := by
  obtain ⟨s, t, e⟩ := trimSpaceRunes_decomp l
  rw [e] at h
  exact h.right_of_append.left_of_append

theorem trimSpaceRunes_head (l : List Char) :
    ∀ c, (trimSpaceRunes l).head? = some c → IsSpace c = false := by
  intro c hc
  unfold trimSpaceRunes at hc
  obtain ⟨t, ht⟩ := List.rdropWhile_prefix IsSpace (l := l.dropWhile IsSpace)
  have h1 := List.head?_dropWhile_not IsSpace l
  cases hr : List.rdropWhile IsSpace (List.dropWhile IsSpace l) with
  | nil => simp [hr] at hc
  | cons a tl =>
    rw [hr] at hc ht
    simp at hc
    subst hc
    rw [← ht] at h1
    simpa using h1

theorem trimSpaceRunes_last (l : List Char) :
    ∀ c, (trimSpaceRunes l).getLast? = some c → IsSpace c = false := by
  intro c hc
  unfold trimSpaceRunes at hc
  have hne : List.rdropWhile IsSpace (List.dropWhile IsSpace l) ≠ [] := by
    intro h; simp [h] at hc
  have := List.rdropWhile_last_not (p := IsSpace) (l := l.dropWhile IsSpace) hne
  rw [List.getLast?_eq_getLast _ hne] at hc
  simp at hc
  subst hc
  simpa using this

theorem trimSpaceRunes_fixed (l : List Char)
    (hh : ∀ c, l.head? = some c → IsSpace c = false)
    (hl : ∀ c, l.getLast? = some c → IsSpace c = false) : trimSpaceRunes l = l := by
  unfold trimSpaceRunes
  have h1 : l.dropWhile IsSpace = l := by
    cases l with
    | nil => rfl
    | cons a tl =>
      have := hh a (by simp)
      simp [List.dropWhile, this]
  rw [h1, List.rdropWhile_eq_self_iff]
  intro hne
  have := hl (l.getLast hne) (List.getLast?_eq_getLast _ hne)
  simp [this]


theorem toNat_ofNat_small (n : Nat) (h : n < 0xd800) : (Char.ofNat n).toNat = n := by
  have hv : n.isValidChar := Or.inl h
  simp only [Char.ofNat, hv, Char.toNat, Char.ofNatAux, dite_true]
  rfl

theorem unicodeToLower_ascii_idem (caseTable : Char → Char) (r : Char) (h : r.toNat ≤ 0x7F) :
    unicodeToLower caseTable (unicodeToLower caseTable r) = unicodeToLower caseTable r := by
  unfold unicodeToLower
  by_cases hu : 65 ≤ r.toNat ∧ r.toNat ≤ 90
  · have e : (Char.ofNat (r.toNat + 32)).toNat = r.toNat + 32 :=
      toNat_ofNat_small _ (by omega)
    have h2 : ¬ (65 ≤ r.toNat + 32 ∧ r.toNat + 32 ≤ 90) := by omega
    have h3 : r.toNat + 32 ≤ 0x7F := by omega
    simp only [h, hu, if_true, and_self, e, h2, h3, if_false]
  · simp only [h, hu, if_true, if_false]

theorem unicodeToLower_fix_of_not_upper (caseTable : Char → Char) (r : Char)
    (h : r.toNat ≤ 0x7F) (hu : ¬ (65 ≤ r.toNat ∧ r.toNat ≤ 90)) :
    unicodeToLower caseTable r = r := by
  simp only [unicodeToLower, h, hu, if_true, if_false]

theorem unicodeToLower_space (caseTable : Char → Char) : unicodeToLower caseTable ' ' = ' ' :=
  unicodeToLower_fix_of_not_upper _ _ (by decide) (by decide)

theorem unicodeToLower_newline (caseTable : Char → Char) :
    unicodeToLower caseTable '\n' = '\n' :=
  unicodeToLower_fix_of_not_upper _ _ (by decide) (by decide)


theorem normalizeText_data (caseTable : Char → Char) (s : String) :
    (normalizeText caseTable s).data
      = trimSpaceRunes (replaceRuns reSpace ' ' false
          (replaceRuns reNewline '\n' false (s.data.map (unicodeToLower caseTable)))) := by
  unfold normalizeText
  by_cases h : s = ""
  · subst h
    simp [replaceRuns, trimSpaceRunes]
  · simp [h, TrimSpace, ToLower]

theorem reSpace_imp_IsSpace {c : Char} (h : reSpace c = true) : IsSpace c = true := by
  simp only [reSpace, Bool.or_eq_true, decide_eq_true_eq] at h
  rcases h with (((h | h) | h) | h) | h <;> subst h <;> decide

theorem reSpace_of_not_IsSpace {c : Char} (h : IsSpace c = false) : reSpace c = false := by
  cases h' : reSpace c
  · rfl
  · rw [reSpace_imp_IsSpace h'] at h; exact absurd h (by decide)

/-- No rune of a normalized text is a newline, tab, carriage return or form feed. -/
theorem normalizeText_no_breaks (caseTable : Char → Char) (s : String) :
    ∀ c ∈ (normalizeText caseTable s).data, c ≠ '\n' ∧ c ≠ '\t' ∧ c ≠ '\r' ∧ c ≠ '\x0c' := by
  rw [normalizeText_data]
  intro c hc
  rcases mem_replaceRuns _ _ (mem_of_mem_trimSpaceRunes hc) with h | ⟨_, h⟩
  · subst h; decide
  · refine ⟨?_, ?_, ?_, ?_⟩ <;> intro e <;> subst e <;> exact absurd h (by decide)

/-- No two spaces are adjacent in a normalized text. -/
theorem normalizeText_single_spaces (caseTable : Char → Char) (s : String) :
    List.Chain' (fun x y => ¬ (x = ' ' ∧ y = ' ')) (normalizeText caseTable s).data := by
  rw [normalizeText_data]
  apply chain_trimSpaceRunes
  refine List.Chain'.imp ?_ (replaceRuns_chain _ false).1
  intro x y hxy h
  exact hxy ⟨by rw [h.1]; decide, by rw [h.2]; decide⟩

/-- A normalized text does not start with white space. -/
theorem normalizeText_head (caseTable : Char → Char) (s : String) :
    ∀ c, (normalizeText caseTable s).data.head? = some c → IsSpace c = false := by
  rw [normalizeText_data]
  exact trimSpaceRunes_head _

/-- A normalized text does not end with white space. -/
theorem normalizeText_last (caseTable : Char → Char) (s : String) :
    ∀ c, (normalizeText caseTable s).data.getLast? = some c → IsSpace c = false := by
  rw [normalizeText_data]
  exact trimSpaceRunes_last _

/-- C5: the result of `normalizeText` contains no newline, tab, carriage return or
form feed, has no two adjacent spaces, and neither starts nor ends with a white
space rune (in the sense of `unicode.IsSpace`, which includes the class `\s`). -/
theorem normalizeText_collapsed (caseTable : Char → Char) (s : String) :
    (∀ c ∈ (normalizeText caseTable s).data,
      c ≠ '\n' ∧ c ≠ '\t' ∧ c ≠ '\r' ∧ c ≠ '\x0c') ∧
    List.Chain' (fun x y => ¬ (x = ' ' ∧ y = ' ')) (normalizeText caseTable s).data ∧
    (∀ c, (normalizeText caseTable s).data.head? = some c →
      IsSpace c = false ∧ reSpace c = false) ∧
    (∀ c, (normalizeText caseTable s).data.getLast? = some c →
      IsSpace c = false ∧ reSpace c = false) := by
  refine ⟨normalizeText_no_breaks caseTable s, normalizeText_single_spaces caseTable s, ?_, ?_⟩
  · intro c hc
    have h := normalizeText_head caseTable s c hc
    exact ⟨h, reSpace_of_not_IsSpace h⟩
  · intro c hc
    have h := normalizeText_last caseTable s c hc
    exact ⟨h, reSpace_of_not_IsSpace h⟩

/-- C4: `normalizeText` is idempotent, for every case table that maps a rune above
`unicode.MaxASCII` to a rune that lowercasing leaves alone (the lower-case mapping of
Unicode, which `unicode.ToLower` reads from its tables, is of this kind). -/
theorem normalizeText_idempotent (caseTable : Char → Char)
    (hT : ∀ r : Char, 0x7F < r.toNat → unicodeToLower caseTable (caseTable r) = caseTable r)
    (s : String) :
    normalizeText caseTable (normalizeText caseTable s) = normalizeText caseTable s := by
  have hidem : ∀ r, unicodeToLower caseTable (unicodeToLower caseTable r)
      = unicodeToLower caseTable r := by
    intro r
    by_cases h : r.toNat ≤ 0x7F
    · exact unicodeToLower_ascii_idem caseTable r h
    · have e : unicodeToLower caseTable r = caseTable r := by
        simp only [unicodeToLower, h, if_false]
      rw [e]
      exact hT r (by omega)
  apply String.ext
  rw [normalizeText_data caseTable (normalizeText caseTable s)]
  have h1 := normalizeText_no_breaks caseTable s
  have h2 := normalizeText_single_spaces caseTable s
  have h3 := normalizeText_head caseTable s
  have h4 := normalizeText_last caseTable s
  have hmem : ∀ c ∈ (normalizeText caseTable s).data, unicodeToLower caseTable c = c := by
    intro c hc
    rw [normalizeText_data] at hc
    rcases mem_replaceRuns _ _ (mem_of_mem_trimSpaceRunes hc) with h | ⟨h, _⟩
    · subst h; exact unicodeToLower_space caseTable
    · rcases mem_replaceRuns _ _ h with h | ⟨h, _⟩
      · subst h; exact unicodeToLower_newline caseTable
      · obtain ⟨r, _, hr⟩ := List.mem_map.1 h
        rw [← hr]
        exact hidem r
  have hmap : (normalizeText caseTable s).data.map (unicodeToLower caseTable)
      = (normalizeText caseTable s).data := by
    conv_rhs => rw [← List.map_id (normalizeText caseTable s).data]
    exact List.map_congr_left (fun c hc => by simpa using hmem c hc)
  have hnl : replaceRuns reNewline '\n' false (normalizeText caseTable s).data
      = (normalizeText caseTable s).data :=
    replaceRuns_of_no_class _ _ (fun c hc => by
      have := (h1 c hc).1
      simpa [reNewline] using this)
  have hclass : ∀ c ∈ (normalizeText caseTable s).data, reSpace c = true → c = ' ' := by
    intro c hc hs
    obtain ⟨a1, a2, a3, a4⟩ := h1 c hc
    simp only [reSpace, Bool.or_eq_true, decide_eq_true_eq] at hs
    rcases hs with (((h | h) | h) | h) | h
    · exact absurd h a2
    · exact absurd h a1
    · exact absurd h a4
    · exact absurd h a3
    · exact h
  have hws : replaceRuns reSpace ' ' false (normalizeText caseTable s).data
      = (normalizeText caseTable s).data := by
    apply replaceRuns_fixed _ _ _ hclass (fun h => by simp at h)
    refine List.Chain'.imp ?_ (List.Chain'.iff_mem.1 h2)
    intro x y hxy h
    exact hxy.2.2 ⟨hclass x hxy.1 h.1, hclass y hxy.2.1 h.2⟩
  rw [hmap, hnl, hws]
  exact trimSpaceRunes_fixed _ h3 h4

/-- Witness of C4 with the case table that has no cased rune above ASCII. -/
theorem normalizeText_idempotent_witness :
    normalizeText (fun r => r) " Hello\n\n  World\t" = "hello world" ∧
    normalizeText (fun r => r) (normalizeText (fun r => r) " Hello\n\n  World\t")
      = normalizeText (fun r => r) " Hello\n\n  World\t" :=
  ⟨by decide,
    normalizeText_idempotent (fun r => r)
      (fun r h => by
        have h' : ¬ r.toNat ≤ 0x7F := by omega
        simp only [unicodeToLower, h', if_false])
      " Hello\n\n  World\t"⟩

/-! ## List items -/

theorem normalizeText_congr (T T' : Char → Char) {s : String}
    (h : ∀ c ∈ s.data, unicodeToLower T c = unicodeToLower T' c) :
    normalizeText T s = normalizeText T' s := by
  apply String.ext
  rw [normalizeText_data, normalizeText_data, List.map_congr_left h]

theorem unicodeToLower_ascii (T T' : Char → Char) (c : Char) (h : c.toNat ≤ 0x7F) :
    unicodeToLower T c = unicodeToLower T' c := by
  simp only [unicodeToLower, h, if_true]

/-- C6 as stated fails: the final text of `<li>one</li><li>two</li>` contains both
bullets. -/
theorem list_markers_counterexample :
    (extract_data (fun r => r) "t" twoItems).text = "• one • two" ∧
      '•' ∈ (extract_data (fun r => r) "t" twoItems).text.data := by
  decide

/-- C6 amended: a dispatched `li` start (or self-closing) tag appends newline,
bullet, space to the raw buffer; normalization turns the newline of a marker into a
space or trims it, and the bullet stays, the case table leaving the bullet alone: for
`<li>one</li><li>two</li>` the raw buffer is `"\n• one \n• two "` and the final text
is `"• one • two"`. -/
theorem list_markers_keep_bullet (caseTable : Char → Char) (now : String)
    (hbullet : caseTable '•' = '•') :
    (∀ (st : LoopState) (tok : Token), isTag tok = true → tok.Data = "li" →
      caseSwitch st tok = { st with res_text := st.res_text ++ "\n• " }) ∧
    (extractLoop LoopState.init twoItems).res_text = "\n• one \n• two " ∧
    (extract_data caseTable now twoItems).text = "• one • two" := by
  refine ⟨?_, by decide, ?_⟩
  · intro st tok hk hd
    simp only [isTag, Bool.or_eq_true, decide_eq_true_eq] at hk
    rcases hk with hk | hk <;> simp [caseSwitch, caseTag, hk, hd]
  · have hbuf : (extractLoop LoopState.init twoItems).res_text = "\n• one \n• two " := by
      decide
    have htext : (extract_data caseTable now twoItems).text
        = normalizeText caseTable (extractLoop LoopState.init twoItems).res_text := rfl
    rw [htext, hbuf]
    have hall : ∀ c ∈ ("\n• one \n• two " : String).data, c.toNat ≤ 0x7F ∨ c = '•' := by
      decide
    rw [normalizeText_congr caseTable (fun r => r) (fun c hc => ?_)]
    · decide
    · rcases hall c hc with h | h
      · exact unicodeToLower_ascii _ _ c h
      · subst h
        have h' : ¬ ('•').toNat ≤ 0x7F := by decide
        simp only [unicodeToLower, h', if_false, hbullet]

/-- Witness of C6 amended with the case table that has no cased rune above ASCII. -/
theorem list_markers_keep_bullet_witness :
    (∀ (st : LoopState) (tok : Token), isTag tok = true → tok.Data = "li" →
      caseSwitch st tok = { st with res_text := st.res_text ++ "\n• " }) ∧
    (extractLoop LoopState.init twoItems).res_text = "\n• one \n• two " ∧
    (extract_data (fun r => r) "t" twoItems).text = "• one • two" :=
  list_markers_keep_bullet (fun r => r) "t" rfl

/-! ## Termination and the fetcher -/

theorem extractLoop_title_last (tok : Token) (ht : isTitleTag tok = true) (st : LoopState)
    (pre : List Token) : extractLoop st (pre ++ [tok]) = extractLoop st pre := by
  have hk : tok.Kind ≠ TokenType.EndTagToken ∧ tok.Kind ≠ TokenType.TextToken := by
    simp only [isTitleTag, isTag, Bool.and_eq_true, Bool.or_eq_true, decide_eq_true_eq] at ht
    rcases ht.1 with h | h <;> simp [h]
  induction st, pre using loop_induction with
  | nil st =>
    by_cases hs : st.skip_tag = ""
    · simp [extractLoop_title_nil hs ht, extractLoop_nil]
    · simp [extractLoop_skip hs, extractLoop_nil, caseSkip, hk.1]
  | skip st t rest hs ih => rw [List.cons_append, extractLoop_skip hs, extractLoop_skip hs, ih]
  | title_nil st t hs h =>
    simp [extractLoop_title_cons hs h, extractLoop_title_nil hs h, extractLoop_nil, caseTitle,
      hk.2]
  | title_cons st t nxt rest hs h ih =>
    rw [List.cons_append, List.cons_append, extractLoop_title_cons hs h,
      extractLoop_title_cons hs h, ih]
  | switch st t rest hs h ih =>
    rw [List.cons_append, extractLoop_switch hs h, extractLoop_switch hs h, ih]

/-- The loop reaches its `break` within one iteration per token plus one, with the
state that the recursion on the stream computes. -/
theorem extractLoopFuel_eq (st : LoopState) (toks : List Token) :
    ∀ fuel, toks.length < fuel → extractLoopFuel fuel st toks = some (extractLoop st toks) := by
  induction st, toks using loop_induction with
  | nil st =>
    intro fuel h
    cases fuel with
    | zero => simp at h
    | succ f => simp [extractLoopFuel, Next, extractLoop_nil]
  | skip st tok rest hs ih =>
    intro fuel h
    cases fuel with
    | zero => simp at h
    | succ f =>
      rw [extractLoop_skip hs, ← ih f (by simpa using h)]
      simp [extractLoopFuel, Next, hs]
  | title_nil st tok hs ht =>
    intro fuel h
    simp only [isTitleTag, isTag, Bool.and_eq_true, Bool.or_eq_true, decide_eq_true_eq] at ht
    match fuel, h with
    | f + 2, _ =>
      rw [extractLoop_title_nil hs (by simp [isTitleTag, isTag, ht])]
      rcases ht.1 with hk | hk <;> simp [extractLoopFuel, Next, hs, hk, ht.2]
    | 1, h => simp at h
    | 0, h => simp at h
  | title_cons st tok nxt rest hs ht ih =>
    intro fuel h
    cases fuel with
    | zero => simp at h
    | succ f =>
      rw [extractLoop_title_cons hs ht, ← ih f (by simp at h; omega)]
      simp only [isTitleTag, isTag, Bool.and_eq_true, Bool.or_eq_true, decide_eq_true_eq] at ht
      rcases ht.1 with hk | hk <;> simp [extractLoopFuel, Next, hs, hk, ht.2]
  | switch st tok rest hs ht ih =>
    intro fuel h
    cases fuel with
    | zero => simp at h
    | succ f =>
      rw [extractLoop_switch hs ht, ← ih f (by simpa using h)]
      simp only [isTitleTag, isTag, Bool.and_eq_true, Bool.or_eq_true, decide_eq_true_eq,
        Bool.and_eq_false_imp] at ht
      cases hk : tok.Kind <;> simp_all [extractLoopFuel, Next, caseSwitch]

/-- C8: `extract_data` never fails. On every finite token stream the loop reaches
its `break` within one iteration per token plus one (also when a title tag is the
last token and its look-ahead reads the end of the stream), in the state from which
`extract_data` builds the document; the document has status code 200; on the empty
stream text, title and description are empty; and a title tag at the very end of the
stream changes nothing. -/
theorem extract_data_total :
    (∀ (toks : List Token) (fuel : Nat), toks.length < fuel →
      extractLoopFuel fuel LoopState.init toks = some (extractLoop LoopState.init toks)) ∧
    (∀ (caseTable : Char → Char) (now : String) (toks : List Token),
      (extract_data caseTable now toks).meta.status_code = 200) ∧
    (∀ (caseTable : Char → Char) (now : String),
      extract_data caseTable now []
        = { url := "", text := "",
            meta := { title := "", description := "", timestamp := now, status_code := 200 } }) ∧
    (∀ (caseTable : Char → Char) (now : String) (pre : List Token) (tok : Token),
      isTitleTag tok = true →
        extract_data caseTable now (pre ++ [tok]) = extract_data caseTable now pre) := by
  refine ⟨fun toks => extractLoopFuel_eq LoopState.init toks, fun _ _ _ => rfl, ?_, ?_⟩
  · intro caseTable now
    simp [extract_data, extractLoop_nil, LoopState.init, CrawlerMessage.zero, normalizeText]
  · intro caseTable now pre tok ht
    simp only [extract_data, extractLoop_title_last tok ht]

/-- C9: `fetch_page` returns an error exactly when `client.Get` fails or the status
is not 200; the message is then the zero value and does not depend on the body, so
nothing of the extractor reaches it; a 404 response gives the status error and the
zero message. -/
theorem fetch_page_error (caseTable : Char → Char) (now : String) (get : String → GetResult)
    (Url : String) :
    ((fetch_page caseTable now get Url).2 ≠ none ↔
      ((∃ err, get Url = GetResult.failure err) ∨
        (∃ code body, get Url = GetResult.response code body ∧ code ≠ 200))) ∧
    ((fetch_page caseTable now get Url).2 ≠ none →
      (fetch_page caseTable now get Url).1 = CrawlerMessage.zero ∧
      (fetch_page caseTable now get Url).1
        = { url := "", text := "",
            meta := { title := "", description := "", timestamp := "", status_code := 0 } }) ∧
    (∀ (code : Int) (body body' : List Token) (now' : String), code ≠ 200 →
      fetch_page caseTable now (fun _ => GetResult.response code body) Url
        = fetch_page caseTable now' (fun _ => GetResult.response code body') Url) ∧
    (∀ body, fetch_page caseTable now (fun _ => GetResult.response 404 body) Url
        = (CrawlerMessage.zero, some ("unexpected status code 404 for " ++ Url))) := by
  refine ⟨?_, ?_, ?_, ?_⟩
  · unfold fetch_page
    cases h : get Url with
    | failure err => simp
    | response code body =>
      by_cases hc : code = 200 <;> simp [hc]
  · unfold fetch_page
    cases h : get Url with
    | failure err => simp [CrawlerMessage.zero]
    | response code body =>
      by_cases hc : code = 200 <;> simp [hc, CrawlerMessage.zero]
  · intro code body body' now' hc
    simp [fetch_page, hc]
  · intro body
    have e : "unexpected status code " ++ toString (404 : Int) ++ " for "
        = "unexpected status code 404 for " := by decide
    simp [fetch_page, e]

/-- C10: when `fetch_page` returns no error, the response had status 200 and the
message has the requested url, status code 200, and the text, title, description and
timestamp of `extract_data` on the body. -/
theorem fetch_page_success (caseTable : Char → Char) (now : String) (get : String → GetResult)
    (Url : String) (hok : (fetch_page caseTable now get Url).2 = none) :
    ∃ body, get Url = GetResult.response 200 body ∧
      (fetch_page caseTable now get Url).1.url = Url ∧
      (fetch_page caseTable now get Url).1.meta.status_code = 200 ∧
      (fetch_page caseTable now get Url).1.text = (extract_data caseTable now body).text ∧
      (fetch_page caseTable now get Url).1.meta.title
        = (extract_data caseTable now body).meta.title ∧
      (fetch_page caseTable now get Url).1.meta.description
        = (extract_data caseTable now body).meta.description ∧
      (fetch_page caseTable now get Url).1.meta.timestamp
        = (extract_data caseTable now body).meta.timestamp := by
  unfold fetch_page at hok ⊢
  cases h : get Url with
  | failure err => simp [h] at hok
  | response code body =>
    by_cases hc : code = 200
    · subst hc
      exact ⟨body, rfl, by simp⟩
    · simp [h, hc] at hok

/-- Witness of C10 on a 200 response whose body is the text `Hi`. -/
theorem fetch_page_success_witness :
    (fetch_page (fun r => r) "t"
        (fun _ => GetResult.response 200 [⟨TokenType.TextToken, "Hi", []⟩]) "u").2 = none ∧
    (fetch_page (fun r => r) "t"
        (fun _ => GetResult.response 200 [⟨TokenType.TextToken, "Hi", []⟩]) "u").1.text
      = (extract_data (fun r => r) "t" [⟨TokenType.TextToken, "Hi", []⟩]).text :=
  ⟨by decide,
    (fetch_page_success (fun r => r) "t"
      (fun _ => GetResult.response 200 [⟨TokenType.TextToken, "Hi", []⟩]) "u"
      (by decide)).elim
      (fun body h => by
        have hb : body = [⟨TokenType.TextToken, "Hi", []⟩] := by
          have := h.1
          simp at this
          exact this.symm
        rw [h.2.2.2.1, hb])⟩

/-! ## Block structure -/

/-- The newline collapse changes nothing that the white space collapse would not
redo. -/
theorem replaceRuns_space_newline :
    ∀ (l : List Char) (b b' : Bool), (b' = true → b = true) →
      replaceRuns reSpace ' ' b (replaceRuns reNewline '\n' b' l) = replaceRuns reSpace ' ' b l := by
  intro l
  induction l with
  | nil => intro b b' _; simp [replaceRuns]
  | cons c cs ih =>
    intro b b' hb
    by_cases hc : c = '\n'
    · subst hc
      have h1 : reNewline '\n' = true := by decide
      have h2 : reSpace '\n' = true := by decide
      cases b' with
      | true =>
        have hb' : b = true := hb rfl
        subst hb'
        simp only [replaceRuns, h1, h2, if_true]
        exact ih true true (fun _ => rfl)
      | false =>
        cases b <;> simp only [replaceRuns, h1, h2, if_true, Bool.false_eq_true, if_false] <;>
          rw [ih true true (fun _ => rfl)]
    · have h1 : reNewline c = false := by simp [reNewline, hc]
      simp only [replaceRuns, h1, Bool.false_eq_true, if_false]
      by_cases h2 : reSpace c = true
      · cases b <;> simp only [h2, if_true, Bool.false_eq_true, if_false] <;>
          rw [ih true false (fun h => by simp at h)]
      · simp only [h2, Bool.false_eq_true, if_false]
        rw [ih false false (fun h => by simp at h)]

theorem replaceRuns_append {cls : Char → Bool} {repl : Char} (y : List Char) :
    ∀ (x : List Char) (b : Bool),
      replaceRuns cls repl b (x ++ y)
        = replaceRuns cls repl b x
          ++ replaceRuns cls repl (match x.getLast? with | some c => cls c | none => b) y := by
  intro x
  induction x with
  | nil => intro b; simp [replaceRuns]
  | cons a tl ih =>
    intro b
    have hflag : (match (a :: tl).getLast? with | some c => cls c | none => b)
        = (match tl.getLast? with | some c => cls c | none => cls a) := by
      rw [List.getLast?_cons]
      cases tl.getLast? <;> simp
    rw [hflag, List.cons_append]
    by_cases ha : cls a = true
    · cases b <;>
        (simp only [replaceRuns, ha, if_true, Bool.false_eq_true, if_false]
         rw [ih true])
      simp
    · have ha' : cls a = false := by simpa using ha
      simp only [replaceRuns, ha', Bool.false_eq_true, if_false]
      rw [ih false]
      simp

theorem replaceRuns_false_or (cls : Char → Bool) (repl : Char) (x : List Char) :
    replaceRuns cls repl false x = replaceRuns cls repl true x
      ∨ replaceRuns cls repl false x = repl :: replaceRuns cls repl true x := by
  cases x with
  | nil => left; simp [replaceRuns]
  | cons a tl =>
    by_cases ha : cls a = true
    · right; simp [replaceRuns, ha]
    · left; simp [replaceRuns, ha]

theorem trimSpaceRunes_cons_space (y : List Char) : trimSpaceRunes (' ' :: y) = trimSpaceRunes y := by
  have h : IsSpace ' ' = true := by decide
  simp [trimSpaceRunes, List.dropWhile, h]

/-- The normal form of a buffer as seen after a separator: lowercased, white space
runs collapsed, leading white space removed altogether, then trimmed. -/
theorem normalizeText_data_run (caseTable : Char → Char) (s : String) :
    (normalizeText caseTable s).data
      = trimSpaceRunes (replaceRuns reSpace ' ' true (s.data.map (unicodeToLower caseTable))) := by
  rw [normalizeText_data, replaceRuns_space_newline _ _ _ (fun h => by simp at h)]
  rcases replaceRuns_false_or reSpace ' ' (s.data.map (unicodeToLower caseTable)) with h | h
  · rw [h]
  · rw [h, trimSpaceRunes_cons_space]

/-- Appending to a buffer that is empty or ends in a space or newline: the collapsed
forms concatenate. -/
theorem collapsed_append (caseTable : Char → Char) (l z : List Char)
    (hl : ∀ c, l.getLast? = some c → c = ' ' ∨ c = '\n') :
    replaceRuns reSpace ' ' true ((l ++ z).map (unicodeToLower caseTable))
      = replaceRuns reSpace ' ' true (l.map (unicodeToLower caseTable))
        ++ replaceRuns reSpace ' ' true (z.map (unicodeToLower caseTable)) := by
  rw [List.map_append, replaceRuns_append]
  congr 2
  rw [List.getLast?_map]
  cases h : l.getLast? with
  | none => rfl
  | some c =>
    rcases hl c h with e | e <;> subst e
    · simp only [Option.map_some', unicodeToLower_space]; decide
    · simp only [Option.map_some', unicodeToLower_newline]; decide

theorem caseMeta_frame (st : LoopState) (tok : Token) (B : String) :
    caseMeta { st with res_text := B } tok
      = { caseMeta st tok with res_text := B ++ (caseMeta LoopState.init tok).res_text } := by
  unfold caseMeta
  simp only []
  split_ifs <;> simp [LoopState.init]

theorem caseTag_frame (st : LoopState) (tok : Token) (B : String) :
    caseTag { st with res_text := B } tok
      = { caseTag st tok with res_text := B ++ (caseTag LoopState.init tok).res_text } := by
  unfold caseTag
  split_ifs <;> simp [LoopState.init, caseMeta_frame st tok B]

theorem caseText_frame (st : LoopState) (tok : Token) (B : String) :
    caseText { st with res_text := B } tok
      = { caseText st tok with res_text := B ++ (caseText LoopState.init tok).res_text } := by
  unfold caseText
  simp only []
  split_ifs <;> simp [LoopState.init, String.append_assoc]

theorem caseSwitch_frame (st : LoopState) (tok : Token) (B : String) :
    caseSwitch { st with res_text := B } tok
      = { caseSwitch st tok with res_text := B ++ appended tok } := by
  unfold appended
  cases hk : tok.Kind <;> simp only [caseSwitch, hk]
  · exact caseText_frame st tok B
  · exact caseTag_frame st tok B
  · simp [LoopState.init]
  · exact caseTag_frame st tok B
  · simp [LoopState.init]
  · simp [LoopState.init]

theorem caseSwitch_res_text (st : LoopState) (tok : Token) :
    (caseSwitch st tok).res_text = st.res_text ++ appended tok := by
  have := caseSwitch_frame st tok st.res_text
  have e : ({ st with res_text := st.res_text } : LoopState) = st := rfl
  rw [e] at this
  rw [this]

theorem caseSkip_frame (st : LoopState) (tok : Token) (B : String) :
    caseSkip { st with res_text := B } tok = { caseSkip st tok with res_text := B } := by
  unfold caseSkip
  split_ifs <;> rfl

theorem caseSkip_res_text (st : LoopState) (tok : Token) :
    (caseSkip st tok).res_text = st.res_text := by
  unfold caseSkip
  split_ifs <;> rfl

theorem appended_last (tok : Token) :
    ∀ c, (appended tok).data.getLast? = some c → c = ' ' ∨ c = '\n' := by
  intro c
  have htag : ∀ d, (caseTag LoopState.init tok).res_text.data.getLast? = some d →
      d = ' ' ∨ d = '\n' := by
    intro d
    unfold caseTag caseMeta
    simp only []
    split_ifs <;> simp [LoopState.init, String.data_append] <;> intro h <;> simp [← h]
  have htext : ∀ d, (caseText LoopState.init tok).res_text.data.getLast? = some d →
      d = ' ' ∨ d = '\n' := by
    intro d
    unfold caseText
    simp only []
    split_ifs
    · simp only [LoopState.init, String.data_append, List.getLast?_append]
      intro h
      left
      exact (Option.some.inj h).symm
    · simp [LoopState.init]
  unfold appended
  cases hk : tok.Kind <;> simp only [caseSwitch, hk]
  · exact htext c
  · exact htag c
  · simp [LoopState.init]
  · exact htag c
  · simp [LoopState.init]
  · simp [LoopState.init]

theorem caseSwitch_block (st : LoopState) {tok : Token} (hb : isBlockTag tok = true) :
    caseSwitch st tok = { st with res_text := st.res_text ++ "\n" } := by
  simp only [isBlockTag, isTag, Bool.and_eq_true, Bool.or_eq_true, decide_eq_true_eq] at hb
  obtain ⟨hk, hd⟩ := hb
  rcases hk with hk | hk <;>
    rcases hd with (((((((hd | hd) | hd) | hd) | hd) | hd) | hd) | hd) | hd <;>
    simp [caseSwitch, caseTag, hk, hd]

theorem caseSkip_block (st : LoopState) {tok : Token} (hb : isBlockTag tok = true) :
    caseSkip st tok = st := by
  simp only [isBlockTag, isTag, Bool.and_eq_true, Bool.or_eq_true, decide_eq_true_eq] at hb
  rcases hb.1 with hk | hk <;> simp [caseSkip, hk]

theorem isBlockTag_of_title {tok : Token} (h : isTitleTag tok = true) :
    isBlockTag tok = false := by
  simp only [isTitleTag, Bool.and_eq_true, decide_eq_true_eq] at h
  simp [isBlockTag, h.2]

theorem caseTitle_frame (st : LoopState) (nxt : Token) (B : String) :
    caseTitle { st with res_text := B } nxt = { caseTitle st nxt with res_text := B } := by
  unfold caseTitle
  split_ifs <;> rfl

theorem caseTitle_res_text (st : LoopState) (nxt : Token) :
    (caseTitle st nxt).res_text = st.res_text := by
  unfold caseTitle
  split_ifs <;> rfl

theorem deleteBlockTags_cons_block {t : Token} (rest : List Token)
    (hb : isBlockTag t = true) : deleteBlockTags (t :: rest) = deleteBlockTags rest := by
  simp [deleteBlockTags, List.filter_cons, hb]

theorem deleteBlockTags_cons_other {t : Token} (rest : List Token)
    (hb : isBlockTag t = false) : deleteBlockTags (t :: rest) = t :: deleteBlockTags rest := by
  simp [deleteBlockTags, List.filter_cons, hb]

/-- Lock-step run of the loop on a stream in which no title tag is directly followed
by a block tag and on the stream with its block tags deleted: the two runs agree on
everything but the raw buffer, and the two buffers have the same collapsed form and
end in a separator. -/
theorem extractLoop_deleteBlockTags (caseTable : Char → Char) (st : LoopState)
    (toks : List Token) :
    List.Chain' (fun a b => isTitleTag a = true → isBlockTag b = false) toks →
    ∀ (B : String),
      replaceRuns reSpace ' ' true (st.res_text.data.map (unicodeToLower caseTable))
        = replaceRuns reSpace ' ' true (B.data.map (unicodeToLower caseTable)) →
      (∀ c, st.res_text.data.getLast? = some c → c = ' ' ∨ c = '\n') →
      (∀ c, B.data.getLast? = some c → c = ' ' ∨ c = '\n') →
      (extractLoop { st with res_text := B } (deleteBlockTags toks)).message
          = (extractLoop st toks).message ∧
        replaceRuns reSpace ' ' true
            ((extractLoop st toks).res_text.data.map (unicodeToLower caseTable))
          = replaceRuns reSpace ' ' true
            ((extractLoop { st with res_text := B } (deleteBlockTags toks)).res_text.data.map
              (unicodeToLower caseTable)) := by
  induction st, toks using loop_induction with
  | nil st =>
    intro _ B hkey _ _
    simp only [deleteBlockTags, List.filter_nil, extractLoop_nil]
    exact ⟨trivial, hkey⟩
  | skip st t rest hs ih =>
    intro hch B hkey hE hE'
    have hch' := hch.tail
    simp only [List.tail_cons] at hch'
    have hs' : ({ st with res_text := B } : LoopState).skip_tag ≠ "" := hs
    rw [extractLoop_skip hs]
    cases hb : isBlockTag t
    · rw [deleteBlockTags_cons_other rest hb, extractLoop_skip hs', caseSkip_frame]
      refine ih hch' B ?_ ?_ hE'
      · rw [caseSkip_res_text]; exact hkey
      · rw [caseSkip_res_text]; exact hE
    · rw [deleteBlockTags_cons_block rest hb]
      have e : caseSkip st t = st := caseSkip_block st hb
      rw [e] at ih ⊢
      exact ih hch' B hkey hE hE'
  | title_nil st t hs ht =>
    intro _ B hkey _ _
    have hs' : ({ st with res_text := B } : LoopState).skip_tag = "" := hs
    rw [deleteBlockTags_cons_other [] (isBlockTag_of_title ht)]
    simp only [deleteBlockTags, List.filter_nil]
    rw [extractLoop_title_nil hs ht, extractLoop_title_nil hs' ht]
    exact ⟨rfl, hkey⟩
  | title_cons st t nxt rest hs ht ih =>
    intro hch B hkey hE hE'
    have hnxt : isBlockTag nxt = false := List.Chain'.rel_head hch ht
    have hch' : List.Chain' (fun a b => isTitleTag a = true → isBlockTag b = false) rest := by
      have h1 := hch.tail
      simp only [List.tail_cons] at h1
      have h2 := h1.tail
      simpa only [List.tail_cons] using h2
    have hs' : ({ st with res_text := B } : LoopState).skip_tag = "" := hs
    rw [deleteBlockTags_cons_other _ (isBlockTag_of_title ht),
      deleteBlockTags_cons_other _ hnxt, extractLoop_title_cons hs ht,
      extractLoop_title_cons hs' ht, caseTitle_frame]
    refine ih hch' B ?_ ?_ hE'
    · rw [caseTitle_res_text]; exact hkey
    · rw [caseTitle_res_text]; exact hE
  | switch st t rest hs ht ih =>
    intro hch B hkey hE hE'
    have hch' := hch.tail
    simp only [List.tail_cons] at hch'
    have hs' : ({ st with res_text := B } : LoopState).skip_tag = "" := hs
    rw [extractLoop_switch hs ht]
    cases hb : isBlockTag t
    · rw [deleteBlockTags_cons_other rest hb, extractLoop_switch hs' ht, caseSwitch_frame]
      refine ih hch' (B ++ appended t) ?_ ?_ ?_
      · rw [caseSwitch_res_text, String.data_append, String.data_append,
          collapsed_append caseTable _ _ hE, collapsed_append caseTable _ _ hE', hkey]
      · intro c hc
        rw [caseSwitch_res_text, String.data_append, List.getLast?_append] at hc
        cases h : (appended t).data.getLast? with
        | none => rw [h] at hc; exact hE c (by simpa using hc)
        | some d =>
          rw [h] at hc
          exact appended_last t c (by rw [h]; exact hc)
      · intro c hc
        rw [String.data_append, List.getLast?_append] at hc
        cases h : (appended t).data.getLast? with
        | none => rw [h] at hc; exact hE' c (by simpa using hc)
        | some d =>
          rw [h] at hc
          exact appended_last t c (by rw [h]; exact hc)
    · rw [deleteBlockTags_cons_block rest hb]
      have e : caseSwitch st t = { st with res_text := st.res_text ++ "\n" } :=
        caseSwitch_block st hb
      rw [e] at ih ⊢
      refine ih hch' B ?_ ?_ hE'
      · have e : (st.res_text ++ "\n").data = st.res_text.data ++ ['\n'] := by
          rw [String.data_append]
        simp only [e]
        rw [collapsed_append caseTable _ _ hE, ← hkey]
        have : replaceRuns reSpace ' ' true (['\n'].map (unicodeToLower caseTable)) = [] := by
          simp only [List.map_cons, List.map_nil, unicodeToLower_newline]
          decide
        rw [this, List.append_nil]
      · intro c hc
        have e : (st.res_text ++ "\n").data = st.res_text.data ++ ['\n'] := by
          rw [String.data_append]
        rw [e, List.getLast?_append, List.getLast?_singleton] at hc
        right
        exact (Option.some.inj hc).symm

theorem chain_of_no_title (toks : List Token) (hno : ∀ t ∈ toks, isTitleTag t = false) :
    List.Chain' (fun a b => isTitleTag a = true → isBlockTag b = false) toks := by
  induction toks with
  | nil => exact List.chain'_nil
  | cons a tl ih =>
    rw [List.chain'_cons']
    refine ⟨?_, ih (fun t ht => hno t (List.mem_cons_of_mem _ ht))⟩
    intro y _ h
    rw [hno a (List.mem_cons_self _ _)] at h
    exact absurd h (by decide)

/-- Deleting the block tags of a stream in which no title tag is directly followed
by a block tag leaves the document as it is. -/
theorem extract_data_deleteBlockTags (caseTable : Char → Char) (now : String)
    (toks : List Token)
    (hch : List.Chain' (fun a b => isTitleTag a = true → isBlockTag b = false) toks) :
    extract_data caseTable now (deleteBlockTags toks) = extract_data caseTable now toks := by
  have h := extractLoop_deleteBlockTags caseTable LoopState.init toks hch "" rfl
    (fun c hc => by simp [LoopState.init] at hc) (fun c hc => by simp at hc)
  have e : ({ LoopState.init with res_text := "" } : LoopState) = LoopState.init := rfl
  rw [e] at h
  have htext : normalizeText caseTable (extractLoop LoopState.init (deleteBlockTags toks)).res_text
      = normalizeText caseTable (extractLoop LoopState.init toks).res_text := by
    apply String.ext
    rw [normalizeText_data_run, normalizeText_data_run, h.2]
  simp only [extract_data, h.1, htext]

/-- C7: block structure does not survive into the final text. For every token stream
that contains no title tag (start or self-closing: both take the branch
`case "title"` of line 113), deleting every start or self-closing tag named
`h1`..`h6`, `p`, `div` or `br` leaves the document returned by `extract_data`, in
particular its text, unchanged. More generally this holds for every stream in which
no title tag is directly followed by one of these tags, as in every stream of
`html.NewTokenizer`, where a title tag is followed by raw text, an end tag or the end
of the stream. -/
theorem block_tags_flattened (caseTable : Char → Char) (now : String) :
    (∀ toks : List Token, (∀ t ∈ toks, isTitleTag t = false) →
      extract_data caseTable now (deleteBlockTags toks) = extract_data caseTable now toks ∧
      (extract_data caseTable now (deleteBlockTags toks)).text
        = (extract_data caseTable now toks).text) ∧
    (∀ toks : List Token,
      List.Chain' (fun a b => isTitleTag a = true → isBlockTag b = false) toks →
      extract_data caseTable now (deleteBlockTags toks) = extract_data caseTable now toks) := by
  refine ⟨?_, fun toks hch => extract_data_deleteBlockTags caseTable now toks hch⟩
  intro toks hno
  have h := extract_data_deleteBlockTags caseTable now toks (chain_of_no_title toks hno)
  exact ⟨h, by rw [h]⟩

/-- Witness of C7 on the stream of `<p>a<br/>b`, which has no title tag, and on the
stream of `<title>T</title><p>a<br/>b`, where the title tag is followed by its text. -/
theorem block_tags_flattened_witness :
    (extract_data (fun r => r) "t"
        [⟨TokenType.StartTagToken, "p", []⟩, ⟨TokenType.TextToken, "a", []⟩,
          ⟨TokenType.SelfClosingTagToken, "br", []⟩, ⟨TokenType.TextToken, "b", []⟩]).text
      = "a b" ∧
    (extract_data (fun r => r) "t"
        (deleteBlockTags [⟨TokenType.StartTagToken, "p", []⟩, ⟨TokenType.TextToken, "a", []⟩,
          ⟨TokenType.SelfClosingTagToken, "br", []⟩, ⟨TokenType.TextToken, "b", []⟩])).text
      = (extract_data (fun r => r) "t"
        [⟨TokenType.StartTagToken, "p", []⟩, ⟨TokenType.TextToken, "a", []⟩,
          ⟨TokenType.SelfClosingTagToken, "br", []⟩, ⟨TokenType.TextToken, "b", []⟩]).text ∧
    deleteBlockTags titledParagraph
      = [⟨TokenType.StartTagToken, "title", []⟩, ⟨TokenType.TextToken, "T", []⟩,
          ⟨TokenType.EndTagToken, "title", []⟩, ⟨TokenType.TextToken, "a", []⟩,
          ⟨TokenType.TextToken, "b", []⟩] ∧
    extract_data (fun r => r) "t" (deleteBlockTags titledParagraph)
      = extract_data (fun r => r) "t" titledParagraph :=
  ⟨by decide,
    ((block_tags_flattened (fun r => r) "t").1
      [⟨TokenType.StartTagToken, "p", []⟩, ⟨TokenType.TextToken, "a", []⟩,
        ⟨TokenType.SelfClosingTagToken, "br", []⟩, ⟨TokenType.TextToken, "b", []⟩]
      (by decide)).2,
    by decide,
    (block_tags_flattened (fun r => r) "t").2 titledParagraph
      (by simp [titledParagraph, isTitleTag, isTag, isBlockTag])⟩

/-! ## The report -/

theorem sliceTo_isSome (s : String) (n : Nat) : (sliceTo s n).isSome = true ↔ n ≤ len s := by
  unfold sliceTo
  by_cases h : n ≤ len s <;> simp [h]

/-- C11: the slice `crawler_message.text[:100]` of line 163 is in bounds if and only
if the text of the message has at least 100 bytes. After a failed fetch `main` has
the zero-valued message, whose text is empty, and the slice is out of range; so it is
after a successful fetch of a page whose text is `hi`; a text of 100 bytes is in
bounds and one of 99 bytes is not. -/
theorem report_slice_bounds :
    (∀ (caseTable : Char → Char) (now : String) (get : String → GetResult),
      ((main caseTable now get).2).isSome = true
        ↔ 100 ≤ len (fetch_page caseTable now get "https://example.com").1.text) ∧
    (∀ (caseTable : Char → Char) (now : String) (get : String → GetResult),
      (fetch_page caseTable now get "https://example.com").2 ≠ none →
        (main caseTable now get).2 = none) ∧
    len CrawlerMessage.zero.text = 0 ∧
    sliceTo CrawlerMessage.zero.text 100 = none ∧
    (main (fun r => r) "t"
      (fun _ => GetResult.response 200 [⟨TokenType.TextToken, "hi", []⟩])).2 = none ∧
    (main (fun r => r) "t" (fun _ => GetResult.response 200
      [⟨TokenType.TextToken, String.mk (List.replicate 99 'a'), []⟩])).2 = none ∧
    ((main (fun r => r) "t" (fun _ => GetResult.response 200
      [⟨TokenType.TextToken, String.mk (List.replicate 100 'a'), []⟩])).2).isSome = true := by
  refine ⟨?_, ?_, by decide, by decide, by decide, by decide, by decide⟩
  · intro caseTable now get
    exact sliceTo_isSome _ _
  · intro caseTable now get herr
    have hzero : (fetch_page caseTable now get "https://example.com").1 = CrawlerMessage.zero := by
      unfold fetch_page at herr ⊢
      cases h : get "https://example.com" with
      | failure err => rfl
      | response code body =>
        by_cases hc : code = 200
        · simp [h, hc] at herr
        · simp [hc]
    simp only [main, hzero]
    decide

/-! ## Blank input -/

theorem IsSpace_cases {c : Char} (h : IsSpace c = true) :
    (c = '\t' ∨ c = '\n' ∨ c = '\x0b' ∨ c = '\x0c' ∨ c = '\r' ∨ c = ' ') ∨ 0x7F < c.toNat := by
  simp only [IsSpace, Bool.or_eq_true, Bool.and_eq_true, decide_eq_true_eq] at h
  by_cases hbig : 0x7F < c.toNat
  · exact Or.inr hbig
  · left
    rcases h with ((((((((((((((h | h) | h) | h) | h) | h) | h) | h) | h) | h) | h) | h) | h) | h) | h)
    all_goals first | tauto | omega

/-- Lowercasing keeps an ASCII white space rune. -/
theorem unicodeToLower_ascii_space (caseTable : Char → Char) {c : Char}
    (h : c = '\t' ∨ c = '\n' ∨ c = '\x0b' ∨ c = '\x0c' ∨ c = '\r' ∨ c = ' ') :
    unicodeToLower caseTable c = c := by
  rcases h with h | h | h | h | h | h <;> subst h <;>
    exact unicodeToLower_fix_of_not_upper _ _ (by decide) (by decide)

/-- A text whose lowercased runes are all white space normalizes to the empty text. -/
theorem normalizeText_of_all_space (caseTable : Char → Char) (s : String)
    (h : ∀ c ∈ s.data, IsSpace (unicodeToLower caseTable c) = true) :
    normalizeText caseTable s = "" := by
  apply String.ext
  rw [normalizeText_data]
  have h1 : ∀ c ∈ replaceRuns reNewline '\n' false (s.data.map (unicodeToLower caseTable)),
      IsSpace c = true := by
    intro c hc
    rcases mem_replaceRuns _ _ hc with e | ⟨hm, _⟩
    · subst e; decide
    · obtain ⟨r, hr, e⟩ := List.mem_map.1 hm
      rw [← e]
      exact h r hr
  have h2 : ∀ c ∈ replaceRuns reSpace ' ' false
      (replaceRuns reNewline '\n' false (s.data.map (unicodeToLower caseTable))),
      IsSpace c = true := by
    intro c hc
    rcases mem_replaceRuns _ _ hc with e | ⟨hm, _⟩
    · subst e; decide
    · exact h1 c hm
  unfold trimSpaceRunes
  rw [List.dropWhile_eq_nil_iff.2 h2]
  rfl

/-- C12: `normalizeText` maps the empty string to the empty string, and so it does
every string made only of runes of the class `\s`; the same holds for every string
made only of runes that satisfy `unicode.IsSpace` when the case table maps white
space above ASCII to white space (white space has no case). -/
theorem normalizeText_blank (caseTable : Char → Char) :
    normalizeText caseTable "" = "" ∧
    (∀ s : String, (∀ c ∈ s.data, reSpace c = true) → normalizeText caseTable s = "") ∧
    ((∀ r : Char, 0x7F < r.toNat → IsSpace r = true → IsSpace (caseTable r) = true) →
      ∀ s : String, (∀ c ∈ s.data, IsSpace c = true) → normalizeText caseTable s = "") := by
  refine ⟨by simp [normalizeText], ?_, ?_⟩
  · intro s hs
    apply normalizeText_of_all_space
    intro c hc
    have hsp := reSpace_imp_IsSpace (hs c hc)
    have hcase : c = '\t' ∨ c = '\n' ∨ c = '\x0b' ∨ c = '\x0c' ∨ c = '\r' ∨ c = ' ' := by
      have := hs c hc
      simp only [reSpace, Bool.or_eq_true, decide_eq_true_eq] at this
      tauto
    rw [unicodeToLower_ascii_space caseTable hcase]
    exact hsp
  · intro hT s hs
    apply normalizeText_of_all_space
    intro c hc
    rcases IsSpace_cases (hs c hc) with hcase | hbig
    · rw [unicodeToLower_ascii_space caseTable hcase]
      exact hs c hc
    · have e : unicodeToLower caseTable c = caseTable c := by
        have h' : ¬ c.toNat ≤ 0x7F := by omega
        simp only [unicodeToLower, h', if_false]
      rw [e]
      exact hT c hbig (hs c hc)

/-- Witness of C12 on a string of a space, a tab, two newlines, a vertical tab and a
no-break space, with the case table that has no cased rune above ASCII. -/
theorem normalizeText_blank_witness :
    normalizeText (fun r => r) " \t\n\n\x0b " = "" :=
  (normalizeText_blank (fun r => r)).2.2 (fun _ _ h => h) " \t\n\n\x0b " (by decide)

/-! ## Text tokens -/

theorem intercalate_go_eq : ∀ (l : List String) (acc : String),
    String.intercalate.go acc " " l
      = match l with
        | [] => acc
        | x :: rest => acc ++ " " ++ joinSpaces (x :: rest) := by
  intro l
  induction l with
  | nil => intro acc; rfl
  | cons a tl ih =>
    intro acc
    rw [String.intercalate.go, ih]
    cases tl with
    | nil => rfl
    | cons b tl' =>
      simp only [joinSpaces, String.append_assoc]

theorem intercalate_eq_joinSpaces (l : List String) : " ".intercalate l = joinSpaces l := by
  cases l with
  | nil => rfl
  | cons a tl =>
    rw [String.intercalate, intercalate_go_eq]
    cases tl with
    | nil => rfl
    | cons b tl' => simp only [joinSpaces, String.append_assoc]

theorem trimSpaceRunes_append_space (y : List Char) :
    trimSpaceRunes (y ++ [' ']) = trimSpaceRunes y := by
  have h : IsSpace ' ' = true := by decide
  unfold trimSpaceRunes
  rw [List.dropWhile_append]
  cases hd : List.dropWhile IsSpace y with
  | nil => simp [List.dropWhile, h]
  | cons a tl =>
    simp only [List.isEmpty_cons, Bool.false_eq_true, if_false]
    exact List.rdropWhile_concat_pos IsSpace _ ' ' h

theorem trimSpaceRunes_append_run (y : List Char) (b : Bool) :
    trimSpaceRunes (y ++ replaceRuns reSpace ' ' b [' ']) = trimSpaceRunes y := by
  have h1 : reSpace ' ' = true := by decide
  cases b with
  | true => simp [replaceRuns, h1]
  | false =>
    have : replaceRuns reSpace ' ' false [' '] = [' '] := by simp [replaceRuns, h1]
    rw [this, trimSpaceRunes_append_space]

/-- A trailing space does not change the normalized text. -/
theorem normalizeText_append_space (caseTable : Char → Char) (s : String) :
    normalizeText caseTable (s ++ " ") = normalizeText caseTable s := by
  apply String.ext
  rw [normalizeText_data_run, normalizeText_data_run, String.data_append]
  have e : (" " : String).data = [' '] := rfl
  rw [e, List.map_append, replaceRuns_append]
  have hsp : List.map (unicodeToLower caseTable) [' '] = [' '] := by
    simp [unicodeToLower_space]
  rw [hsp]
  exact trimSpaceRunes_append_run _ _

theorem caseSwitch_skip_tag (st : LoopState) (tok : Token)
    (h : isTag tok = true →
      tok.Data ≠ "script" ∧ tok.Data ≠ "noscript" ∧ tok.Data ≠ "style") :
    (caseSwitch st tok).skip_tag = st.skip_tag := by
  cases hk : tok.Kind <;> simp only [caseSwitch, hk]
  · unfold caseText; simp only []; split_ifs <;> rfl
  · obtain ⟨h1, h2, h3⟩ := h (by simp [isTag, hk])
    unfold caseTag caseMeta
    simp only [h1, h2, h3, or_self, if_false]
    split_ifs <;> rfl
  · obtain ⟨h1, h2, h3⟩ := h (by simp [isTag, hk])
    unfold caseTag caseMeta
    simp only [h1, h2, h3, or_self, if_false]
    split_ifs <;> rfl

/-- Without title tags and without suppression the raw buffer is the concatenation
of what the tokens append. -/
theorem extractLoop_buffer (toks : List Token)
    (H : ∀ t ∈ toks, isTag t = true →
      t.Data ≠ "title" ∧ t.Data ≠ "script" ∧ t.Data ≠ "noscript" ∧ t.Data ≠ "style") :
    ∀ st : LoopState, st.skip_tag = "" →
      (extractLoop st toks).res_text.data
        = st.res_text.data ++ (toks.map (fun t => (appended t).data)).flatten := by
  induction toks with
  | nil => intro st _; simp [extractLoop_nil]
  | cons t rest ih =>
    intro st hs
    have ht : isTitleTag t = false := by
      cases h : isTag t
      · simp [isTitleTag, h]
      · have := (H t (List.mem_cons_self _ _) h).1
        simp [isTitleTag, this]
    have hskip : (caseSwitch st t).skip_tag = "" := by
      rw [caseSwitch_skip_tag st t (fun h => (H t (List.mem_cons_self _ _) h).2), hs]
    rw [extractLoop_switch hs ht, ih (fun u hu => H u (List.mem_cons_of_mem _ hu)) _ hskip,
      caseSwitch_res_text, String.data_append]
    simp

/-- Collapsed form of a concatenation of chunks that each end in a separator. -/
theorem collapsed_flatten (caseTable : Char → Char) (cs : List (List Char))
    (hcs : ∀ c ∈ cs, ∀ x, c.getLast? = some x → x = ' ' ∨ x = '\n') :
    ∀ l0 : List Char, (∀ x, l0.getLast? = some x → x = ' ' ∨ x = '\n') →
      replaceRuns reSpace ' ' true ((l0 ++ cs.flatten).map (unicodeToLower caseTable))
        = replaceRuns reSpace ' ' true (l0.map (unicodeToLower caseTable))
          ++ (cs.map (fun c =>
              replaceRuns reSpace ' ' true (c.map (unicodeToLower caseTable)))).flatten := by
  induction cs with
  | nil => intro l0 _; simp
  | cons c rest ih =>
    intro l0 h0
    have hc := hcs c (List.mem_cons_self _ _)
    have h1 : ∀ x, (l0 ++ c).getLast? = some x → x = ' ' ∨ x = '\n' := by
      intro x hx
      rw [List.getLast?_append] at hx
      cases h : c.getLast? with
      | none => rw [h] at hx; exact h0 x (by simpa using hx)
      | some d => rw [h] at hx; exact hc x (by rw [h]; exact hx)
    rw [List.flatten_cons, ← List.append_assoc,
      ih (fun d hd => hcs d (List.mem_cons_of_mem _ hd)) (l0 ++ c) h1,
      collapsed_append caseTable l0 c h0]
    simp

theorem textContents_cons (t : Token) (rest : List Token) :
    textContents (t :: rest)
      = (if t.Kind = TokenType.TextToken ∧ TrimSpace t.Data ≠ "" then [TrimSpace t.Data] else [])
        ++ textContents rest := by
  unfold textContents
  by_cases hk : t.Kind = TokenType.TextToken
  · by_cases hx : TrimSpace t.Data = "" <;> simp [List.filter_cons, hk, hx]
  · simp [List.filter_cons, hk]

/-- Collapsed form of what a token other than a title or `li` tag appends: that of
its trimmed text followed by a space for a text token with non-blank content, nothing
otherwise. -/
theorem appended_collapsed (caseTable : Char → Char) (t : Token)
    (hli : isTag t = true → t.Data ≠ "li") :
    replaceRuns reSpace ' ' true ((appended t).data.map (unicodeToLower caseTable))
      = if t.Kind = TokenType.TextToken ∧ TrimSpace t.Data ≠ "" then
          replaceRuns reSpace ' ' true
            (((TrimSpace t.Data).data ++ [' ']).map (unicodeToLower caseTable))
        else [] := by
  have htag : isTag t = true →
      replaceRuns reSpace ' ' true
        ((caseTag LoopState.init t).res_text.data.map (unicodeToLower caseTable)) = [] := by
    intro h
    have hl := hli h
    unfold caseTag caseMeta
    simp only [hl, if_false]
    have hre : reSpace (unicodeToLower caseTable '\n') = true := by
      rw [unicodeToLower_newline]; decide
    split_ifs <;> simp [LoopState.init, replaceRuns, String.data_append, hre]
  unfold appended
  cases hk : t.Kind <;> simp only [caseSwitch, hk]
  · unfold caseText
    simp only []
    by_cases hx : TrimSpace t.Data = ""
    · simp [hx, LoopState.init, replaceRuns]
    · have e : (" " : String).data = [' '] := rfl
      simp [hx, LoopState.init, String.data_append, e]
  · simpa using htag (by simp [isTag, hk])
  · simp [LoopState.init, replaceRuns]
  · simpa using htag (by simp [isTag, hk])
  · simp [LoopState.init, replaceRuns]
  · simp [LoopState.init, replaceRuns]

theorem collapsed_chunks (caseTable : Char → Char) (toks : List Token)
    (hli : ∀ t ∈ toks, isTag t = true → t.Data ≠ "li") :
    (toks.map (fun t => replaceRuns reSpace ' ' true
        ((appended t).data.map (unicodeToLower caseTable)))).flatten
      = ((textContents toks).map (fun x => replaceRuns reSpace ' ' true
          ((x.data ++ [' ']).map (unicodeToLower caseTable)))).flatten := by
  induction toks with
  | nil => simp [textContents]
  | cons t rest ih =>
    rw [textContents_cons, List.map_cons, List.flatten_cons,
      ih (fun u hu => hli u (List.mem_cons_of_mem _ hu)),
      appended_collapsed caseTable t (hli t (List.mem_cons_self _ _))]
    by_cases h : t.Kind = TokenType.TextToken ∧ TrimSpace t.Data ≠ "" <;> simp [h]

theorem joinSpaces_data (texts : List String) (hne : texts ≠ []) :
    (joinSpaces texts).data ++ [' '] = (texts.map (fun x => x.data ++ [' '])).flatten := by
  induction texts with
  | nil => exact absurd rfl hne
  | cons x rest ih =>
    cases rest with
    | nil => simp [joinSpaces]
    | cons y rest' =>
      have := ih (by simp)
      have e : (" " : String).data = [' '] := rfl
      simp only [joinSpaces, String.data_append, e, List.map_cons, List.flatten_cons] at this ⊢
      rw [← this]
      simp

/-- The text of the document for a stream without title, `script`, `noscript`,
`style` and `li` tags. -/
theorem extract_data_text_of_texts (caseTable : Char → Char) (now : String)
    (toks : List Token)
    (H : ∀ t ∈ toks, isTag t = true →
      t.Data ≠ "title" ∧ t.Data ≠ "script" ∧ t.Data ≠ "noscript" ∧ t.Data ≠ "style"
        ∧ t.Data ≠ "li") :
    (extract_data caseTable now toks).text
      = normalizeText caseTable (joinSpaces (textContents toks)) := by
  have htext : (extract_data caseTable now toks).text
      = normalizeText caseTable (extractLoop LoopState.init toks).res_text := rfl
  have hbuf := extractLoop_buffer toks
    (fun t ht h => ⟨(H t ht h).1, (H t ht h).2.1, (H t ht h).2.2.1, (H t ht h).2.2.2.1⟩)
    LoopState.init rfl
  have hinit : LoopState.init.res_text.data = [] := rfl
  rw [hinit] at hbuf
  have hkey : replaceRuns reSpace ' ' true
      ((extractLoop LoopState.init toks).res_text.data.map (unicodeToLower caseTable))
      = ((textContents toks).map (fun x => replaceRuns reSpace ' ' true
          ((x.data ++ [' ']).map (unicodeToLower caseTable)))).flatten := by
    rw [hbuf, collapsed_flatten caseTable _ (by
        intro c hc
        obtain ⟨t, _, e⟩ := List.mem_map.1 hc
        rw [← e]
        exact appended_last t) [] (by simp)]
    simp only [List.map_nil, replaceRuns, List.nil_append, List.map_map]
    exact collapsed_chunks caseTable toks (fun t ht h => (H t ht h).2.2.2.2)
  rw [htext]
  by_cases hne : textContents toks = []
  · apply String.ext
    rw [normalizeText_data_run, normalizeText_data_run, hkey, hne]
    simp [joinSpaces, replaceRuns]
  · rw [← normalizeText_append_space caseTable (joinSpaces (textContents toks))]
    apply String.ext
    rw [normalizeText_data_run, normalizeText_data_run, hkey, String.data_append]
    have e : (" " : String).data = [' '] := rfl
    rw [e, joinSpaces_data _ hne,
      ← List.nil_append ((textContents toks).map (fun x => x.data ++ [' '])).flatten,
      collapsed_flatten caseTable _ (by
        intro c hc
        obtain ⟨x, _, e⟩ := List.mem_map.1 hc
        rw [← e]
        intro d hd
        simp at hd
        exact Or.inl hd.symm) [] (by simp)]
    simp [replaceRuns, List.map_map, Function.comp_def]

/-- C13: for every token stream without title, `script`, `noscript`, `style` and `li`
start or self-closing tags (so for every stream of text tokens and of tags other than
title, meta, script, noscript, style and li), the text returned by `extract_data` is
`normalizeText` of the trimmed, non-empty text-token contents joined in stream order
with single spaces. A text token with blank content leaves the loop state as it is,
and two text tokens are joined by one space whether nothing or a tag stands between
them. -/
theorem text_is_joined_texts (caseTable : Char → Char) (now : String) :
    (∀ toks : List Token,
      (∀ t ∈ toks, isTag t = true →
        t.Data ≠ "title" ∧ t.Data ≠ "script" ∧ t.Data ≠ "noscript" ∧ t.Data ≠ "style"
          ∧ t.Data ≠ "li") →
      (extract_data caseTable now toks).text
        = normalizeText caseTable (" ".intercalate (textContents toks))) ∧
    (∀ (st : LoopState) (tok : Token), tok.Kind = TokenType.TextToken →
      TrimSpace tok.Data = "" → caseSwitch st tok = st) ∧
    (∀ x y : String, TrimSpace x ≠ "" → TrimSpace y ≠ "" →
      (extract_data caseTable now
          [⟨TokenType.TextToken, x, []⟩, ⟨TokenType.TextToken, y, []⟩]).text
        = normalizeText caseTable (TrimSpace x ++ " " ++ TrimSpace y)) ∧
    (∀ (x y : String) (tag : Token), TrimSpace x ≠ "" → TrimSpace y ≠ "" →
      isTag tag = true →
      tag.Data ≠ "title" ∧ tag.Data ≠ "script" ∧ tag.Data ≠ "noscript" ∧ tag.Data ≠ "style"
        ∧ tag.Data ≠ "li" →
      (extract_data caseTable now
          [⟨TokenType.TextToken, x, []⟩, tag, ⟨TokenType.TextToken, y, []⟩]).text
        = normalizeText caseTable (TrimSpace x ++ " " ++ TrimSpace y)) := by
  refine ⟨?_, ?_, ?_, ?_⟩
  · intro toks H
    rw [intercalate_eq_joinSpaces]
    exact extract_data_text_of_texts caseTable now toks H
  · intro st tok hk hx
    simp [caseSwitch, hk, caseText, hx]
  · intro x y hx hy
    rw [extract_data_text_of_texts caseTable now _ (by simp [isTag])]
    simp [textContents, hx, hy, joinSpaces]
  · intro x y tag hx hy htag hname
    have hk : tag.Kind ≠ TokenType.TextToken := by
      simp only [isTag, Bool.or_eq_true, decide_eq_true_eq] at htag
      rcases htag with h | h <;> simp [h]
    rw [extract_data_text_of_texts caseTable now _ (by
      intro t ht
      simp only [List.mem_cons, List.mem_singleton, List.not_mem_nil, or_false] at ht
      rcases ht with e | e | e
      · subst e; simp [isTag]
      · subst e; exact fun _ => hname
      · subst e; simp [isTag])]
    simp [textContents, hx, hy, hk, joinSpaces]

/-- Witness of C13 on the stream of ` Hello <b>World</b>  <p>A B`. -/
theorem text_is_joined_texts_witness :
    (extract_data (fun r => r) "t"
        [⟨TokenType.TextToken, " Hello ", []⟩, ⟨TokenType.StartTagToken, "b", []⟩,
          ⟨TokenType.TextToken, "World", []⟩, ⟨TokenType.EndTagToken, "b", []⟩,
          ⟨TokenType.TextToken, "  ", []⟩, ⟨TokenType.StartTagToken, "p", []⟩,
          ⟨TokenType.TextToken, "A\tB", []⟩]).text
      = normalizeText (fun r => r) (" ".intercalate ["Hello", "World", "A\tB"]) :=
  (text_is_joined_texts (fun r => r) "t").1
    [⟨TokenType.TextToken, " Hello ", []⟩, ⟨TokenType.StartTagToken, "b", []⟩,
      ⟨TokenType.TextToken, "World", []⟩, ⟨TokenType.EndTagToken, "b", []⟩,
      ⟨TokenType.TextToken, "  ", []⟩, ⟨TokenType.StartTagToken, "p", []⟩,
      ⟨TokenType.TextToken, "A\tB", []⟩]
    (by decide)

/-! ## Unclosed elements -/

/-- C14: an unclosed suppressed element swallows the rest of the document. For a
start or self-closing tag named `script`, `noscript` or `style` that is reached in
Normal state and followed by tokens none of which is an end tag of that name,
`extract_data` returns the same message (so the same text, title and description) as
on the tokens before the tag alone. -/
theorem unclosed_element_swallows (caseTable : Char → Char) (now : String)
    (pre rest : List Token) (tag : Token)
    (hname : tag.Data = "script" ∨ tag.Data = "noscript" ∨ tag.Data = "style")
    (htag : isTag tag = true)
    (hpre : reachedNormal pre = true)
    (hrest : ∀ t ∈ rest, ¬ (t.Kind = TokenType.EndTagToken ∧ t.Data = tag.Data)) :
    extract_data caseTable now (pre ++ [tag] ++ rest) = extract_data caseTable now pre := by
  obtain ⟨st, hst, hnormal⟩ := (reachedNormal_iff pre).1 hpre
  have hnotTitle : isTitleTag tag = false := by
    rcases hname with h | h | h <;> simp [isTitleTag, h]
  have hsw : caseSwitch st tag = { st with skip_tag := tag.Data } := by
    simp only [isTag, Bool.or_eq_true, decide_eq_true_eq] at htag
    rcases htag with hk | hk <;> rcases hname with h | h | h <;>
      simp [caseSwitch, caseTag, hk, h]
  have hne : tag.Data ≠ "" := by
    rcases hname with h | h | h <;> simp [h]
  have h1 : extractLoop LoopState.init (pre ++ [tag] ++ rest)
      = { st with skip_tag := tag.Data } := by
    have e : pre ++ [tag] ++ rest = pre ++ (tag :: (rest ++ [])) := by simp
    rw [e, extractLoop_append _ _ _ st hst, extractLoop_switch hnormal hnotTitle, hsw,
      extractLoop_discard [] rest _ hne hrest, extractLoop_nil]
  have h2 : extractLoop LoopState.init pre = st := by
    have := extractLoop_append [] _ _ st hst
    rw [List.append_nil, extractLoop_nil] at this
    exact this
  simp only [extract_data, h1, h2]

/-- Witness of C14 on the stream of `a<script/>b</p>c`. -/
theorem unclosed_element_swallows_witness :
    (extract_data (fun r => r) "t" [⟨TokenType.TextToken, "a", []⟩]).text = "a" ∧
    extract_data (fun r => r) "t"
        ([⟨TokenType.TextToken, "a", []⟩] ++ [⟨TokenType.SelfClosingTagToken, "script", []⟩]
          ++ [⟨TokenType.TextToken, "b", []⟩, ⟨TokenType.EndTagToken, "p", []⟩,
              ⟨TokenType.TextToken, "c", []⟩])
      = extract_data (fun r => r) "t" [⟨TokenType.TextToken, "a", []⟩] :=
  ⟨by decide,
    unclosed_element_swallows (fun r => r) "t" [⟨TokenType.TextToken, "a", []⟩]
      [⟨TokenType.TextToken, "b", []⟩, ⟨TokenType.EndTagToken, "p", []⟩,
        ⟨TokenType.TextToken, "c", []⟩]
      ⟨TokenType.SelfClosingTagToken, "script", []⟩ (by decide) (by decide) (by decide)
      (by decide)⟩

/-! ## The newline step -/

/-- C15: the newline-collapse step of `normalizeText` is subsumed by the white space
collapse: `normalizeText` equals the pipeline without it, on every string. -/
theorem newline_step_subsumed (caseTable : Char → Char) (s : String) :
    normalizeText caseTable s = normalizeTextWithoutNewlineStep caseTable s := by
  unfold normalizeText normalizeTextWithoutNewlineStep
  by_cases h : s = ""
  · simp [h]
  · simp only [h, if_false]
    rw [replaceRuns_space_newline _ _ _ (fun hb => by simp at hb)]

/-! ## Attribute maps -/

theorem attrToMap_foldl (k : String) (arr_attr : List Attribute) :
    ∀ m : StringMap,
      arr_attr.foldl (fun map_attr elem => map_attr.set elem.Key elem.Val) m k
        = ((lastValue arr_attr k).or (m k)) := by
  induction arr_attr with
  | nil => intro m; simp [lastValue]
  | cons a tl ih =>
    intro m
    rw [List.foldl_cons, ih]
    unfold lastValue
    by_cases ha : a.Key = k
    · simp only [List.filter_cons, ha, decide_True, if_true, List.getLast?_cons,
        Option.map_some', StringMap.set]
      cases h : (List.filter (fun elem => decide (elem.Key = k)) tl).getLast? <;> simp
    · have hk : ¬ k = a.Key := fun e => ha e.symm
      simp [List.filter_cons, ha, StringMap.set, hk]

theorem attrToMap_apply (arr_attr : List Attribute) (k : String) :
    attrToMap arr_attr k = lastValue arr_attr k := by
  unfold attrToMap
  rw [attrToMap_foldl]
  simp [StringMap.empty]

theorem lastValue_of_absent {arr_attr : List Attribute} {k : String}
    (hno : ∀ a ∈ arr_attr, a.Key ≠ k) : lastValue arr_attr k = none := by
  unfold lastValue
  have hp : List.filter (fun elem => decide (elem.Key = k)) arr_attr = [] := by
    rw [List.filter_eq_nil_iff]
    intro b hb
    simpa using hno b hb
  simp [hp]

/-- C18: `attrToMap` binds a key to the value of the last attribute of the list that
has this key, and has no entry for a key that no attribute of the list has. -/
theorem attrToMap_last_wins (arr_attr : List Attribute) (k : String) :
    attrToMap arr_attr k = lastValue arr_attr k ∧
    (∀ (pre post : List Attribute) (a : Attribute), arr_attr = pre ++ a :: post →
      a.Key = k → (∀ b ∈ post, b.Key ≠ k) → attrToMap arr_attr k = some a.Val) ∧
    ((∀ a ∈ arr_attr, a.Key ≠ k) → attrToMap arr_attr k = none) := by
  refine ⟨attrToMap_apply arr_attr k, ?_, ?_⟩
  · intro pre post a e hk hpost
    rw [attrToMap_apply, e]
    unfold lastValue
    have hp : List.filter (fun elem => decide (elem.Key = k)) post = [] := by
      rw [List.filter_eq_nil_iff]
      intro b hb
      simpa using hpost b hb
    simp [List.filter_append, List.filter_cons, hk, hp]
  · intro hno
    rw [attrToMap_apply, lastValue_of_absent hno]

/-- Witness of C18 on a list with a duplicated key. -/
theorem attrToMap_last_wins_witness :
    attrToMap [⟨"", "name", "a"⟩, ⟨"", "content", "x"⟩, ⟨"", "name", "b"⟩] "name" = some "b" :=
  (attrToMap_last_wins [⟨"", "name", "a"⟩, ⟨"", "content", "x"⟩, ⟨"", "name", "b"⟩] "name").2.1
    [⟨"", "name", "a"⟩, ⟨"", "content", "x"⟩] [] ⟨"", "name", "b"⟩ rfl rfl (by simp)

/-- C19: `valueExistAndEqualKey` holds exactly when the key is present and bound to
the value; for an absent key it is false also for the empty value, which is what the
index expression `m[k]` gives for an absent key. -/
theorem valueExistAndEqualKey_iff (attr_map : StringMap) (key value : String) :
    (valueExistAndEqualKey attr_map key value = true ↔ attr_map key = some value) ∧
    (attr_map key = none →
      valueExistAndEqualKey attr_map key "" = false ∧ attr_map.index key = "") := by
  unfold valueExistAndEqualKey StringMap.index
  cases h : attr_map key with
  | none => simp
  | some v => simp

/-! ## Meta tags without content -/

theorem contentAttr_of_absent {tok : Token} (h : ∀ a ∈ tok.Attr, a.Key ≠ "content") :
    contentAttr tok = "" := by
  unfold contentAttr StringMap.index
  rw [attrToMap_apply, lastValue_of_absent h]
  rfl

/-- C16: a description meta tag without a `content` attribute erases the
description. When the last description meta tag dispatched in Normal state has no
`content` attribute, `extract_data` returns the empty description, also after an
earlier description meta tag with a content (as in `og:description` with content `A`
followed by `name = "description"` without content); a meta tag with neither
`property = "og:description"` nor `name = "description"` leaves the loop state as it
is. -/
theorem description_erased_without_content :
    (∀ (caseTable : Char → Char) (now : String) (toks : List Token) (m : Token),
      (descriptionMetas toks).getLast? = some m → (∀ a ∈ m.Attr, a.Key ≠ "content") →
      (extract_data caseTable now toks).meta.description = "") ∧
    (∀ (caseTable : Char → Char) (now A : String),
      (extract_data caseTable now [metaOgDescription A]).meta.description = A ∧
      (extract_data caseTable now
        [metaOgDescription A, metaNameNoContent]).meta.description = "") ∧
    (∀ (st : LoopState) (tok : Token),
      valueExistAndEqualKey (attrToMap tok.Attr) "property" "og:description" = false →
      valueExistAndEqualKey (attrToMap tok.Attr) "name" "description" = false →
      caseMeta st tok = st) := by
  refine ⟨?_, ?_, ?_⟩
  · intro caseTable now toks m hlast hno
    have h : (extract_data caseTable now toks).meta.description
        = (((descriptionMetas toks).getLast?).map contentAttr).getD "" := by
      simp only [extract_data, descriptionMetas, normalTokens]
      rw [extractLoop_description]
      rfl
    rw [h, hlast]
    simp [contentAttr_of_absent hno]
  · intro caseTable now A
    constructor <;>
      simp [extract_data, extractLoop, LoopState.init, metaOgDescription, metaNameNoContent,
        caseTag, caseMeta, attrToMap, valueExistAndEqualKey, StringMap.set, StringMap.index,
        StringMap.empty]
  · intro st tok h1 h2
    simp [caseMeta, h1, h2]

/-- Witness of C16 on `og:description` with content `A` followed by
`name = "description"` without content. -/
theorem description_erased_without_content_witness :
    (extract_data (fun r => r) "t"
      [metaOgDescription "A", metaNameNoContent]).meta.description = "" :=
  description_erased_without_content.1 (fun r => r) "t"
    [metaOgDescription "A", metaNameNoContent] metaNameNoContent (by decide) (by decide)

/-! ## The title look-ahead -/

theorem caseTitle_eq (st : LoopState) (nxt : Token) :
    caseTitle st nxt
      = if nxt.Kind = TokenType.TextToken then withTitle st nxt.Data else st := rfl

theorem caseSkip_withTitle (st : LoopState) (tok : Token) (x : String) :
    caseSkip (withTitle st x) tok = withTitle (caseSkip st tok) x := by
  unfold caseSkip withTitle
  split_ifs <;> rfl

theorem caseSwitch_withTitle (st : LoopState) (tok : Token) (x : String) :
    caseSwitch (withTitle st x) tok = withTitle (caseSwitch st tok) x := by
  have hmeta : caseMeta (withTitle st x) tok = withTitle (caseMeta st tok) x := by
    unfold caseMeta withTitle
    simp only []
    split_ifs <;> rfl
  have htag : caseTag (withTitle st x) tok = withTitle (caseTag st tok) x := by
    unfold caseTag
    split_ifs
    · exact hmeta
    all_goals rfl
  have htext : caseText (withTitle st x) tok = withTitle (caseText st tok) x := by
    unfold caseText withTitle
    simp only []
    split_ifs <;> rfl
  cases hk : tok.Kind <;> simp only [caseSwitch, hk]
  · exact htext
  · exact htag
  · exact htag

theorem caseTitle_withTitle (st : LoopState) (nxt : Token) (x : String) :
    ∃ y, caseTitle (withTitle st x) nxt = withTitle (caseTitle st nxt) y := by
  unfold caseTitle
  by_cases h : nxt.Kind = TokenType.TextToken
  · exact ⟨nxt.Data, by simp [h, withTitle]⟩
  · exact ⟨x, by simp [h]⟩

/-- The title variable does not influence the rest of the loop state. -/
theorem extractLoop_withTitle (st : LoopState) (toks : List Token) :
    ∀ x, ∃ y, extractLoop (withTitle st x) toks = withTitle (extractLoop st toks) y := by
  induction st, toks using loop_induction with
  | nil st => intro x; exact ⟨x, by simp [extractLoop_nil]⟩
  | skip st tok rest hs ih =>
    intro x
    have hs' : (withTitle st x).skip_tag ≠ "" := hs
    rw [extractLoop_skip hs, extractLoop_skip hs', caseSkip_withTitle]
    exact ih x
  | title_nil st tok hs ht =>
    intro x
    have hs' : (withTitle st x).skip_tag = "" := hs
    exact ⟨x, by rw [extractLoop_title_nil hs ht, extractLoop_title_nil hs' ht]⟩
  | title_cons st tok nxt rest hs ht ih =>
    intro x
    have hs' : (withTitle st x).skip_tag = "" := hs
    obtain ⟨y, hy⟩ := caseTitle_withTitle st nxt x
    rw [extractLoop_title_cons hs ht, extractLoop_title_cons hs' ht, hy]
    exact ih y
  | switch st tok rest hs ht ih =>
    intro x
    have hs' : (withTitle st x).skip_tag = "" := hs
    rw [extractLoop_switch hs ht, extractLoop_switch hs' ht, caseSwitch_withTitle]
    exact ih x

theorem extractLoop_title_of_no_title (toks : List Token)
    (h : ∀ t ∈ toks, isTitleTag t = false) :
    ∀ st : LoopState, (extractLoop st toks).message.meta.title = st.message.meta.title := by
  induction toks with
  | nil => intro st; rw [extractLoop_nil]
  | cons t rest ih =>
    intro st
    have ih' := ih (fun u hu => h u (List.mem_cons_of_mem _ hu))
    by_cases hs : st.skip_tag = ""
    · rw [extractLoop_switch hs (h t (List.mem_cons_self _ _)), ih', caseSwitch_title]
    · rw [extractLoop_skip hs, ih', caseSkip_message]

/-- C17: the token after a title tag dispatched in Normal state is consumed by the
look-ahead and is not dispatched. The title tag and the token `nxt` after it make one
iteration, which leaves the loop state as it was except that a text token `nxt` puts
its content, verbatim, into the title. If `nxt` is not a text token the document is
that of the stream without the two tokens (a `script` tag there starts no
suppression, a `p` or `li` tag there appends no marker). If `nxt` is a text token,
text and description are those of the stream without the two tokens (the content is
not appended to the body text), and the title is the content of `nxt` when no title
tag follows. -/
theorem title_lookahead_consumes (caseTable : Char → Char) (now : String)
    (pre post : List Token) (tag nxt : Token)
    (hpre : reachedNormal pre = true) (htag : isTitleTag tag = true) :
    (∀ st, loopHead LoopState.init pre = some st →
      loopHead LoopState.init (pre ++ [tag, nxt])
        = some (if nxt.Kind = TokenType.TextToken then withTitle st nxt.Data else st)) ∧
    (nxt.Kind ≠ TokenType.TextToken →
      extract_data caseTable now (pre ++ tag :: nxt :: post)
        = extract_data caseTable now (pre ++ post)) ∧
    (nxt.Kind = TokenType.TextToken →
      (extract_data caseTable now (pre ++ tag :: nxt :: post)).text
          = (extract_data caseTable now (pre ++ post)).text ∧
      (extract_data caseTable now (pre ++ tag :: nxt :: post)).meta.description
          = (extract_data caseTable now (pre ++ post)).meta.description ∧
      ((∀ t ∈ post, isTitleTag t = false) →
        (extract_data caseTable now (pre ++ tag :: nxt :: post)).meta.title = nxt.Data)) := by
  obtain ⟨st, hst, hnormal⟩ := (reachedNormal_iff pre).1 hpre
  have hrun : extractLoop LoopState.init (pre ++ tag :: nxt :: post)
      = extractLoop (caseTitle st nxt) post := by
    rw [extractLoop_append _ _ _ st hst, extractLoop_title_cons hnormal htag]
  have hwithout : extractLoop LoopState.init (pre ++ post) = extractLoop st post :=
    extractLoop_append _ _ _ st hst
  refine ⟨?_, ?_, ?_⟩
  · intro st' hst'
    have e : st' = st := by
      rw [hst] at hst'
      exact (Option.some.inj hst').symm
    subst e
    rw [loopHead_append _ _ _ st' hst, loopHead_title_cons hnormal htag, loopHead_nil,
      caseTitle_eq]
  · intro hk
    have e : caseTitle st nxt = st := by simp [caseTitle, hk]
    simp only [extract_data, hrun, hwithout, e]
  · intro hk
    have e : caseTitle st nxt = withTitle st nxt.Data := by simp [caseTitle_eq, hk]
    obtain ⟨y, hy⟩ := extractLoop_withTitle st post nxt.Data
    refine ⟨?_, ?_, ?_⟩
    · simp only [extract_data, hrun, hwithout, e, hy]
      rfl
    · simp only [extract_data, hrun, hwithout, e, hy]
      rfl
    · intro hno
      have := extractLoop_title_of_no_title post hno (withTitle st nxt.Data)
      simp only [extract_data, hrun, e]
      exact this

/-- Witness of C17: a `script` start tag directly after a title start tag starts no
suppression, an `li` start tag there appends no marker, and a text there becomes the
title as it is and stays out of the text. -/
theorem title_lookahead_consumes_witness :
    extract_data (fun r => r) "t"
        ([] ++ ⟨TokenType.StartTagToken, "title", []⟩
          :: ⟨TokenType.StartTagToken, "script", []⟩ :: [⟨TokenType.TextToken, "x", []⟩])
      = extract_data (fun r => r) "t" ([] ++ [⟨TokenType.TextToken, "x", []⟩]) ∧
    (extract_data (fun r => r) "t"
      [⟨TokenType.StartTagToken, "title", []⟩, ⟨TokenType.StartTagToken, "script", []⟩,
        ⟨TokenType.TextToken, "x", []⟩]).text = "x" ∧
    (extract_data (fun r => r) "t"
      [⟨TokenType.StartTagToken, "title", []⟩, ⟨TokenType.StartTagToken, "li", []⟩,
        ⟨TokenType.TextToken, "x", []⟩]).text = "x" ∧
    (extract_data (fun r => r) "t"
      [⟨TokenType.StartTagToken, "title", []⟩, ⟨TokenType.TextToken, " My Title ", []⟩,
        ⟨TokenType.TextToken, "x", []⟩]) = ⟨"", "x", ⟨" My Title ", "", "t", 200⟩⟩ :=
  ⟨(title_lookahead_consumes (fun r => r) "t" [] [⟨TokenType.TextToken, "x", []⟩]
      ⟨TokenType.StartTagToken, "title", []⟩ ⟨TokenType.StartTagToken, "script", []⟩
      (by decide) (by decide)).2.1 (by decide),
    by decide, by decide, by decide⟩

end Crawler
